import Mathlib

/-! Craft network client (`src/client.c`): shallow embedding and verified properties.

The C translation unit keeps its whole state in file-level statics
(`client_enabled`, `running`, `sd`, `bytes_sent`, `bytes_received`, `queue`,
`qsize`) plus the five function-level statics of `client_position`.  The
embedding threads that state explicitly through every operation.

Conventions of the embedding:

* a `char` is a natural number (its byte value); the newline `'\n'` is `10`
  and the string terminator `'\0'` is `0`;
* the memory block behind the `queue` pointer is a function from offsets to
  bytes, so that `memcpy` and `memmove` are pointwise updates; the *logical
  content* of the buffer is the list of the bytes at offsets `0 .. qsize-1`;
* a returned `char *` is either `none` (the null pointer) or `some block`,
  where `block` lists the bytes written into the freshly allocated block,
  terminator included;
* the sections of `client_recv` and of `recv_worker` between `mtx_lock` and
  `mtx_unlock` are atomic steps on the state;
* `free(queue)` sets the flag `queue_freed`; the block function keeps recording
  what the program stores at the freed addresses;
* `float` pose fields are exact rationals.
-/

namespace Craft

/-! ## Constants -/

/-- Capacity of the receive queue: `#define QUEUE_SIZE 1048576`. -/
def QUEUE_SIZE : Nat := 1048576

/-- Size of the receiver's chunk buffer: `#define RECV_SIZE 4096`. -/
def RECV_SIZE : Nat := 4096

/-- The byte value of the newline character. -/
def NEWLINE : Nat := 10

/-- The byte value of the string terminator. -/
def NUL : Nat := 0

/-! ## State -/

/-- The statics of `client.c`.  `queue` is the memory block the C pointer
`queue` refers to; `px .. pry` are the statics declared inside `client_position`.
`queue_freed` says whether that block has been handed to `free`: from then on
`queue` still records what the program stores at those addresses, but the
addresses no longer belong to an allocated block. -/
structure State where
  client_enabled : Int
  running : Int
  sd : Int
  bytes_sent : Int
  bytes_received : Int
  queue : Nat → Nat
  qsize : Nat
  px : ℚ
  py : ℚ
  pz : ℚ
  prx : ℚ
  pry : ℚ
  queue_freed : Bool := false

/-- Addition on C `int` counters, reduced to the 32-bit two's complement range. -/
def int_add (a b : Int) : Int :=
  (a + b + 2147483648) % 4294967296 - 2147483648

/-- The logical content of the receive buffer: bytes at offsets `0 .. qsize-1`. -/
def content (s : State) : List Nat :=
  (List.range s.qsize).map s.queue

/-! ## Memory primitives -/

/-- The effect of `memcpy(dst + off, src, src.length)` on the block `dst`. -/
def memcpy (dst : Nat → Nat) (off : Nat) (src : List Nat) : Nat → Nat :=
  fun i => if off ≤ i ∧ i < off + src.length then src.getD (i - off) 0 else dst i

/-- The effect of `memmove(dst, dst + src_off, n)` on the block `dst`
(all `n` source bytes are read before any is written). -/
def memmove (dst : Nat → Nat) (src_off n : Nat) : Nat → Nat :=
  fun i => if i < n then dst (i + src_off) else dst i

/-! ## `client_recv` -/

/-- The backward scan of `client_recv`:
`p = queue + qsize - 1; while (p >= queue && *p != '\n') p--;`.
The argument is `p - queue + 1`, the result the final value of `p - queue`
(`-1` when the scan ran off the front of the block). -/
def scan_back (queue : Nat → Nat) : Nat → Int
  | 0 => -1
  | k + 1 => if queue k = NEWLINE then (k : Int) else scan_back queue k

/-- Embedding of `client_recv`: the returned block (or `none` for the null
pointer) and the state after the call. -/
def client_recv (s : State) : Option (List Nat) × State :=
  if s.client_enabled = 0 then (none, s)
  else
    let p := scan_back s.queue s.qsize
    if 0 ≤ p then
      let length := (p + 1).toNat
      let result := (List.range length).map s.queue ++ [NUL]
      let remaining := s.qsize - length
      (some result,
        { s with
          queue := memmove s.queue length remaining
          qsize := s.qsize - length
          bytes_received := int_add s.bytes_received length })
    else (none, s)

/-! ## `recv_worker` and `client_start` -/

/-- One pass through the inner `while (1)` of `recv_worker` for a chunk of
`data.length` received bytes (the section between `mtx_lock` and
`mtx_unlock`).  The worker has already stored the terminator at
`data[length]`, so `length + 1` bytes are copied.  The first component is the
`done` flag. -/
def recv_worker_append (s : State) (data : List Nat) : Bool × State :=
  let length := data.length
  if s.qsize + length < QUEUE_SIZE then
    (true,
      { s with
        queue := memcpy s.queue s.qsize (data ++ [NUL])
        qsize := s.qsize + length })
  else (false, s)

/-- Embedding of `client_start` (the path on which `thrd_create` succeeds):
`running = 1`, a fresh zero-filled block from `calloc`, `qsize = 0`. -/
def client_start (s : State) : State :=
  if s.client_enabled = 0 then s
  else { s with running := 1, queue := fun _ => 0, queue_freed := false, qsize := 0 }

/-- The two kinds of atomic steps on the shared buffer: one append attempt of
the receiver thread, or one `client_recv` call of the consumer. -/
inductive Event where
  | append (data : List Nat)
  | recv

/-- What an interleaving has produced so far: the blocks handed out by
`client_recv`, in call order, and the chunks whose append attempt succeeded,
in call order. -/
structure Trace where
  returned : List (List Nat)
  appended : List (List Nat)

/-- Runs one event, extending the trace. -/
def step (st : State × Trace) : Event → State × Trace
  | Event.append data =>
    let r := recv_worker_append st.1 data
    (r.2, { st.2 with
      appended := if r.1 then st.2.appended ++ [data] else st.2.appended })
  | Event.recv =>
    let r := client_recv st.1
    (r.2, { st.2 with
      returned := match r.1 with
        | some block => st.2.returned ++ [block]
        | none => st.2.returned })

/-- Runs a sequence of events from a state, starting with an empty trace. -/
def run (s : State) (events : List Event) : State × Trace :=
  events.foldl step (s, { returned := [], appended := [] })

/-- The chunks offered by the append events of a sequence, in order. -/
def offered : List Event → List (List Nat)
  | [] => []
  | Event.append data :: es => data :: offered es
  | Event.recv :: es => offered es

/-- The payload of a block returned by `client_recv`: the `length` bytes in
front of the terminator stored at `result[length]`. -/
def payload (block : List Nat) : List Nat := block.dropLast

/-! ## The send path -/

/-- The record of one `client_sendall` call: the value returned, the state
afterwards, and the bytes the primitive `send` accepted, in call order. -/
structure SendResult where
  ret : Int
  state : State
  wire : List Nat

/-- The `while (count < length)` loop of `client_sendall`.  `send k len` is
what the `k`-th call of the primitive returns when asked for `len` bytes; a
call that returns `n` has accepted the `n` bytes starting at `data + count`.
`count` and `length` are the C locals; `fuel` bounds the number of iterations,
and `none` means the bound was reached. -/
def client_sendall_loop (send : Nat → Int → Int) (data : List Nat) :
    Nat → Nat → Int → Int → State → List Nat → Option SendResult
  | 0, _, _, _, _, _ => none
  | fuel + 1, k, count, length, s, wire =>
    if count < length then
      let n := send k length
      if n = -1 then some { ret := -1, state := s, wire := wire }
      else
        client_sendall_loop send data fuel (k + 1) (count + n) (length - n)
          { s with bytes_sent := int_add s.bytes_sent n }
          (wire ++ (data.drop count.toNat).take n.toNat)
    else some { ret := 0, state := s, wire := wire }

/-- Embedding of `client_sendall(sd, data, length)`. -/
def client_sendall (send : Nat → Int → Int) (fuel : Nat) (s : State)
    (data : List Nat) (length : Int) : Option SendResult :=
  if s.client_enabled = 0 then some { ret := 0, state := s, wire := [] }
  else client_sendall_loop send data fuel 0 0 length s []

/-- The values returned by the calls of `send` that the loop of
`client_sendall` makes, in call order: the same recursion as
`client_sendall_loop`, keeping only what the primitive returned. -/
def client_sendall_loop_returns (send : Nat → Int → Int) : Nat → Nat → Int → Int → List Int
  | 0, _, _, _ => []
  | fuel + 1, k, count, length =>
    if count < length then
      let n := send k length
      if n = -1 then [n]
      else n :: client_sendall_loop_returns send fuel (k + 1) (count + n) (length - n)
    else []

/-- The values returned by the calls of `send` made by `client_sendall`. -/
def client_sendall_returns (send : Nat → Int → Int) (fuel : Nat) (s : State)
    (length : Int) : List Int :=
  if s.client_enabled = 0 then []
  else client_sendall_loop_returns send fuel 0 0 length

/-! ## Formatting -/

/-- The C string left in a buffer of `size` bytes by `snprintf` when the
formatted text is `text`: at most `size - 1` bytes of it, then the terminator. -/
def snprintf (size : Nat) (text : List Nat) : List Nat :=
  text.take (size - 1) ++ [NUL]

/-- The decimal digits of a natural number, as bytes. -/
def decimal (n : Nat) : List Nat :=
  (Nat.toDigits 10 n).map Char.toNat

/-- Rounding of a non-negative exact number to the nearest integer, ties to even. -/
def round_half_even (q : ℚ) : Nat :=
  let f := q.floor.toNat
  let r := q - (f : ℚ)
  if r < 1 / 2 then f
  else if 1 / 2 < r then f + 1
  else if f % 2 = 0 then f else f + 1

/-- The conversion `%.2f` of `printf` on an exact number: sign, integer part,
a point and two decimals. -/
def format_2f (v : ℚ) : List Nat :=
  let n := round_half_even (|v| * 100)
  (if v < 0 then [45] else []) ++ decimal (n / 100) ++ [46, 48 + n % 100 / 10, 48 + n % 10]

/-- The text of the format `"P,%.2f,%.2f,%.2f,%.2f,%.2f\n"`. -/
def position_text (x y z rx ry : ℚ) : List Nat :=
  [80, 44] ++ format_2f x ++ [44] ++ format_2f y ++ [44] ++ format_2f z ++ [44]
    ++ format_2f rx ++ [44] ++ format_2f ry ++ [NEWLINE]

/-! ## `client_enable` and `client_position` -/

/-- The statics at process start: all zero (`queue` is the null pointer, its
block is never read while `qsize = 0`). -/
def initial : State :=
  { client_enabled := 0, running := 0, sd := 0, bytes_sent := 0, bytes_received := 0
    queue := fun _ => 0, qsize := 0
    px := 0, py := 0, pz := 0, prx := 0, pry := 0 }

/-- Embedding of `client_enable`. -/
def client_enable (s : State) : State := { s with client_enabled := 1 }

/-- Embedding of `client_disable`. -/
def client_disable (s : State) : State := { s with client_enabled := 0 }

/-- The local `distance` of `client_position`: the squared distance between the
stored pose and the new one. -/
def pose_distance (px py pz prx pry x y z rx ry : ℚ) : ℚ :=
  (px - x) * (px - x) +
  (py - y) * (py - y) +
  (pz - z) * (pz - z) +
  (prx - rx) * (prx - rx) +
  (pry - ry) * (pry - ry)

/-- Embedding of `client_position`.  The first component is the buffer handed
to `client_send` by the final statement, `none` when the function returns
before reaching it. -/
def client_position (s : State) (x y z rx ry : ℚ) : Option (List Nat) × State :=
  let distance := pose_distance s.px s.py s.pz s.prx s.pry x y z rx ry
  if s.client_enabled = 0 then (none, s)
  else if distance < 1 / 10000 then (none, s)
  else
    (some (snprintf 1024 (position_text x y z rx ry)),
      { s with px := x, py := y, pz := z, prx := rx, pry := ry })

/-! ## `client_send` and the message functions -/

/-- The C function `strlen` on a block: the number of bytes in front of the
first terminator. -/
def strlen (block : List Nat) : Nat :=
  (block.takeWhile (fun c => c != NUL)).length

/-- The record of one `client_send` call: whether the process was ended by
`exit(1)`, the state, and the bytes the primitive `send` accepted. -/
structure CallResult where
  exited : Bool
  state : State
  wire : List Nat

/-- Embedding of `client_send(data)`; `none` when the loop of `client_sendall`
exceeds `fuel` iterations. -/
def client_send (send : Nat → Int → Int) (fuel : Nat) (s : State)
    (data : List Nat) : Option CallResult :=
  if s.client_enabled = 0 then some { exited := false, state := s, wire := [] }
  else
    match client_sendall send fuel s data (strlen data) with
    | none => none
    | some r =>
      if r.ret = -1 then some { exited := true, state := r.state, wire := r.wire }
      else some { exited := false, state := r.state, wire := r.wire }

/-- The conversion `%d` of `printf`: signed decimal. -/
def format_d (v : Int) : List Nat :=
  if v < 0 then 45 :: decimal v.natAbs else decimal v.natAbs

/-- The conversion `%s` of `printf` on the bytes of a string argument: the
bytes in front of the first terminator. -/
def format_s (text : List Nat) : List Nat :=
  text.takeWhile (fun c => c != NUL)

/-- The text of the format `"V,%d\n"`. -/
def version_text (version : Int) : List Nat :=
  [86, 44] ++ format_d version ++ [NEWLINE]

/-- The text of the format `"A,%s,%s\n"`. -/
def login_text (username identity_token : List Nat) : List Nat :=
  [65, 44] ++ format_s username ++ [44] ++ format_s identity_token ++ [NEWLINE]

/-- The text of the format `"C,%d,%d,%d\n"`. -/
def chunk_text (p q key : Int) : List Nat :=
  [67, 44] ++ format_d p ++ [44] ++ format_d q ++ [44] ++ format_d key ++ [NEWLINE]

/-- The text of the format `"B,%d,%d,%d,%d\n"`. -/
def block_text (x y z w : Int) : List Nat :=
  [66, 44] ++ format_d x ++ [44] ++ format_d y ++ [44] ++ format_d z ++ [44]
    ++ format_d w ++ [NEWLINE]

/-- The text of the format `"L,%d,%d,%d,%d\n"`. -/
def light_text (x y z w : Int) : List Nat :=
  [76, 44] ++ format_d x ++ [44] ++ format_d y ++ [44] ++ format_d z ++ [44]
    ++ format_d w ++ [NEWLINE]

/-- The text of the format `"S,%d,%d,%d,%d,%s\n"`. -/
def sign_text (x y z face : Int) (text : List Nat) : List Nat :=
  [83, 44] ++ format_d x ++ [44] ++ format_d y ++ [44] ++ format_d z ++ [44]
    ++ format_d face ++ [44] ++ format_s text ++ [NEWLINE]

/-- The text of the format `"T,%s\n"`. -/
def talk_text (text : List Nat) : List Nat :=
  [84, 44] ++ format_s text ++ [NEWLINE]

/-- Embedding of `client_version`.  As for `client_position`, the first
component is the buffer handed to `client_send`, `none` when the function
returns before reaching that call. -/
def client_version (s : State) (version : Int) : Option (List Nat) × State :=
  if s.client_enabled = 0 then (none, s)
  else (some (snprintf 1024 (version_text version)), s)

/-- Embedding of `client_login`. -/
def client_login (s : State) (username identity_token : List Nat) :
    Option (List Nat) × State :=
  if s.client_enabled = 0 then (none, s)
  else (some (snprintf 1024 (login_text username identity_token)), s)

/-- Embedding of `client_chunk`. -/
def client_chunk (s : State) (p q key : Int) : Option (List Nat) × State :=
  if s.client_enabled = 0 then (none, s)
  else (some (snprintf 1024 (chunk_text p q key)), s)

/-- Embedding of `client_block`. -/
def client_block (s : State) (x y z w : Int) : Option (List Nat) × State :=
  if s.client_enabled = 0 then (none, s)
  else (some (snprintf 1024 (block_text x y z w)), s)

/-- Embedding of `client_light`. -/
def client_light (s : State) (x y z w : Int) : Option (List Nat) × State :=
  if s.client_enabled = 0 then (none, s)
  else (some (snprintf 1024 (light_text x y z w)), s)

/-- Embedding of `client_sign`. -/
def client_sign (s : State) (x y z face : Int) (text : List Nat) :
    Option (List Nat) × State :=
  if s.client_enabled = 0 then (none, s)
  else (some (snprintf 1024 (sign_text x y z face text)), s)

/-- Embedding of `client_talk`. -/
def client_talk (s : State) (text : List Nat) : Option (List Nat) × State :=
  if s.client_enabled = 0 then (none, s)
  else if strlen text = 0 then (none, s)
  else (some (snprintf 1024 (talk_text text)), s)

/-! ## `client_connect` and `client_stop` -/

/-- Embedding of `client_connect`.  The arguments are what the three library
calls return: whether `gethostbyname` found the host, the descriptor from
`socket`, and the result of `connect`.  An error carries the label passed to
`perror` in front of `exit(1)`. -/
def client_connect (s : State) (host_found : Bool) (socket_result connect_result : Int) :
    Except String State :=
  if s.client_enabled = 0 then Except.ok s
  else if host_found = false then Except.error "gethostbyname"
  else if socket_result = -1 then Except.error "socket"
  else if connect_result = -1 then Except.error "connect"
  else Except.ok { s with sd := socket_result }

/-- Embedding of `client_stop`: `running = 0`, `close(sd)`, `qsize = 0`,
`free(queue)`.  The receiver thread is not joined (the `thrd_join` call is
under `#if 0`), so steps of `recv_worker` can follow. -/
def client_stop (s : State) : State :=
  if s.client_enabled = 0 then s
  else { s with running := 0, qsize := 0, queue_freed := true }

/-! ## The read step of `recv_worker` -/

/-- What `recv_worker` does after one `recv` call. -/
inductive WorkerStep where
  /-- The call `perror("recv"); exit(1)`. -/
  | fatal
  /-- The statements `break; free(data); return 0`. -/
  | returned (value : Int)
  /-- The way on to the inner loop with the chunk read. -/
  | append (chunk : List Nat)
  deriving DecidableEq

/-- The size asked of `recv`: `RECV_SIZE - 1`. -/
def recv_request : Nat := RECV_SIZE - 1

/-- The body of the outer `while (1)` of `recv_worker` up to the inner loop:
`length` is the value returned by `recv`, `data` the bytes it stored. -/
def recv_worker_read (s : State) (length : Int) (data : List Nat) : WorkerStep :=
  if length ≤ 0 then
    if s.running ≠ 0 then WorkerStep.fatal
    else WorkerStep.returned 0
  else WorkerStep.append (data.take length.toNat)

/-! ## Steps on the shared buffer, `client_stop` included -/

/-- The atomic steps that touch the shared buffer after `client_start`. -/
inductive BufferOp where
  | append (data : List Nat)
  | recv
  | stop

/-- Runs one step on the shared buffer. -/
def apply_op (s : State) : BufferOp → State
  | BufferOp.append data => (recv_worker_append s data).2
  | BufferOp.recv => (client_recv s).2
  | BufferOp.stop => client_stop s

/-! ## Use of the mutex -/

/-- The accesses to the mutex and to the shared buffer (`queue` and `qsize`)
made by a function, in program order. -/
inductive Access where
  | lock
  | unlock
  | read_buffer
  | write_buffer
  deriving DecidableEq

/-- The accesses of `client_recv` on an enabled client: `mtx_lock`, the scan
(reads of `qsize` and `queue`), and when a newline was found the `memcpy` out
of `queue`, the `memmove` inside `queue` and `qsize -= length`, then
`mtx_unlock`. -/
def client_recv_accesses (found : Bool) : List Access :=
  [Access.lock, Access.read_buffer] ++
    (if found then [Access.read_buffer, Access.write_buffer, Access.write_buffer] else []) ++
    [Access.unlock]

/-- The accesses of one pass through the inner loop of `recv_worker`:
`mtx_lock`, the test on `qsize`, and when the chunk fits the `memcpy` into
`queue` and `qsize += length`, then `mtx_unlock`. -/
def recv_worker_accesses (fits : Bool) : List Access :=
  [Access.lock, Access.read_buffer] ++
    (if fits then [Access.write_buffer, Access.write_buffer] else []) ++
    [Access.unlock]

/-- The accesses of `client_stop` on an enabled client: `qsize = 0` and
`free(queue)`; the function calls neither `mtx_lock` nor `mtx_unlock`. -/
def client_stop_accesses : List Access :=
  [Access.write_buffer, Access.write_buffer]

/-- Whether every write to the shared buffer in a sequence of accesses happens
while the mutex is held; `held` says whether it is held at the start. -/
def writes_locked : Bool → List Access → Bool
  | _, [] => true
  | _, Access.lock :: rest => writes_locked true rest
  | _, Access.unlock :: rest => writes_locked false rest
  | held, Access.read_buffer :: rest => writes_locked held rest
  | held, Access.write_buffer :: rest => held && writes_locked held rest

/-! ## Auxiliary definitions for the statements -/

/-- The values of the C type `int`. -/
def in_int_range (v : Int) : Prop :=
  -2147483648 ≤ v ∧ v ≤ 2147483647


/-- The state after `k` consecutive `client_recv` calls (their results dropped). -/
def drains : Nat → State → State
  | 0, s => s
  | k + 1, s => drains k (client_recv s).2

/-- A concrete state for worked examples: an enabled client whose queue block
is one byte short of `QUEUE_SIZE - 1` bytes of `'A'` closed by a newline. -/
def state_nearly_full : State :=
  { client_enabled := 1, running := 1, sd := 3, bytes_sent := 0, bytes_received := 0
    queue := fun i => if i = 1048574 then NEWLINE else 65, qsize := 1048575
    px := 0, py := 0, pz := 0, prx := 0, pry := 0 }

/-- A concrete state for worked examples: an enabled client whose buffer holds
`QUEUE_SIZE - 1` bytes of `'A'` and no newline. -/
def state_stuck : State :=
  { client_enabled := 1, running := 1, sd := 3, bytes_sent := 0, bytes_received := 0
    queue := fun _ => 65, qsize := 1048575
    px := 0, py := 0, pz := 0, prx := 0, pry := 0 }

/-- A concrete state for worked examples: an enabled, running client whose
queue block holds `bytes` at offsets `0 ..` (zero elsewhere, as after `calloc`)
and whose `qsize` is `bytes.length`. -/
def state_holding (bytes : List Nat) : State :=
  { client_enabled := 1, running := 1, sd := 3, bytes_sent := 0, bytes_received := 0
    queue := fun i => bytes.getD i 0, qsize := bytes.length
    px := 0, py := 0, pz := 0, prx := 0, pry := 0 }

/-! ## Lemmas on the buffer content and the backward scan -/

theorem content_length (s : State) : (content s).length = s.qsize := by
  simp [content]

theorem map_range_getElem? (f : Nat → Nat) (n i : Nat) :
    ((List.range n).map f)[i]? = if i < n then some (f i) else none := by
  by_cases h : i < n
  · rw [if_pos h, List.getElem?_map, List.getElem?_range h]
    rfl
  · rw [if_neg h]
    apply List.getElem?_eq_none
    simp
    omega

theorem map_range_take (f : Nat → Nat) (n k : Nat) (h : k ≤ n) :
    ((List.range n).map f).take k = (List.range k).map f := by
  apply List.ext_getElem?
  intro i
  rw [List.getElem?_take, map_range_getElem?, map_range_getElem?]
  by_cases hi : i < k
  · have hin : i < n := by omega
    simp [hi, hin]
  · simp [hi]

theorem map_range_drop (f : Nat → Nat) (n k : Nat) :
    ((List.range n).map f).drop k = (List.range (n - k)).map (fun i => f (i + k)) := by
  apply List.ext_getElem?
  intro i
  rw [List.getElem?_drop, map_range_getElem?, map_range_getElem?]
  by_cases hi : i < n - k
  · have hin : k + i < n := by omega
    simp [hi, hin, Nat.add_comm]
  · have hin : ¬ k + i < n := by omega
    simp [hi, hin]

theorem map_range_append (f : Nat → Nat) (n : Nat) (l : List Nat) :
    (List.range (n + l.length)).map (fun i => if i < n then f i else l.getD (i - n) 0)
      = (List.range n).map f ++ l := by
  apply List.ext_getElem?
  intro i
  rw [map_range_getElem?]
  by_cases hi : i < n
  · have hin : i < n + l.length := by omega
    rw [List.getElem?_append_left (by simpa using hi), map_range_getElem?]
    simp [hi, hin]
  · have h3 : n ≤ i := by omega
    rw [List.getElem?_append_right (by simpa using h3)]
    simp only [List.length_map, List.length_range, hi, if_false]
    by_cases hil : i < n + l.length
    · have h2 : i - n < l.length := by omega
      simp [hil, h2, List.getD_eq_getElem?_getD, List.getElem?_eq_getElem]
    · have h2 : l.length ≤ i - n := by omega
      simp [hil, List.getElem?_eq_none h2]

theorem content_getElem? (s : State) (i : Nat) :
    (content s)[i]? = if i < s.qsize then some (s.queue i) else none :=
  map_range_getElem? s.queue s.qsize i

/-- When no byte below `k` is a newline the scan runs off the front. -/
theorem scan_back_none (q : Nat → Nat) :
    ∀ k, (∀ i, i < k → q i ≠ NEWLINE) → scan_back q k = -1
  | 0, _ => rfl
  | k + 1, h => by
    have hk : q k ≠ NEWLINE := h k (Nat.lt_succ_self k)
    have ih := scan_back_none q k (fun i hi => h i (Nat.lt_succ_of_lt hi))
    simp [scan_back, hk, ih]

/-- The scan stops at the rightmost newline below `k`. -/
theorem scan_back_found (q : Nat → Nat) (p : Nat) (hnl : q p = NEWLINE) :
    ∀ k, p < k → (∀ j, p < j → j < k → q j ≠ NEWLINE) → scan_back q k = (p : Int)
  | 0, hp, _ => absurd hp (Nat.not_lt_zero p)
  | k + 1, hp, h => by
    by_cases hpk : p = k
    · subst hpk
      simp [scan_back, hnl]
    · have hlt : p < k := by omega
      have hk : q k ≠ NEWLINE := h k hlt (Nat.lt_succ_self k)
      have ih := scan_back_found q p hnl k hlt (fun j h1 h2 => h j h1 (Nat.lt_succ_of_lt h2))
      simp [scan_back, hk, ih]

/-- The scan either fails, with no newline below `k`, or returns the offset
of the rightmost newline below `k`. -/
theorem scan_back_spec (q : Nat → Nat) :
    ∀ k, (scan_back q k = -1 ∧ ∀ i, i < k → q i ≠ NEWLINE) ∨
      ∃ p, p < k ∧ scan_back q k = (p : Int) ∧ q p = NEWLINE ∧
        ∀ j, p < j → j < k → q j ≠ NEWLINE
  | 0 => Or.inl ⟨rfl, fun i hi => absurd hi (Nat.not_lt_zero i)⟩
  | k + 1 => by
    by_cases hk : q k = NEWLINE
    · refine Or.inr ⟨k, Nat.lt_succ_self k, ?_, hk, ?_⟩
      · simp [scan_back, hk]
      · intro j h1 h2
        omega
    · rcases scan_back_spec q k with ⟨h1, h2⟩ | ⟨p, hp, h1, h2, h3⟩
      · refine Or.inl ⟨?_, ?_⟩
        · simp [scan_back, hk, h1]
        · intro i hi
          by_cases hik : i = k
          · subst hik
            exact hk
          · exact h2 i (by omega)
      · refine Or.inr ⟨p, Nat.lt_succ_of_lt hp, ?_, h2, ?_⟩
        · simp [scan_back, hk, h1]
        · intro j hj1 hj2
          by_cases hjk : j = k
          · subst hjk
            exact hk
          · exact h3 j hj1 (by omega)

/-- The result of `client_recv` on an enabled client whose rightmost newline
sits at offset `p`. -/
theorem client_recv_at (s : State) (p : Nat) (he : s.client_enabled ≠ 0)
    (hp : p < s.qsize) (hnl : s.queue p = NEWLINE)
    (hlast : ∀ j, p < j → j < s.qsize → s.queue j ≠ NEWLINE) :
    client_recv s =
      (some ((List.range (p + 1)).map s.queue ++ [NUL]),
        { s with
          queue := memmove s.queue (p + 1) (s.qsize - (p + 1))
          qsize := s.qsize - (p + 1)
          bytes_received := int_add s.bytes_received ((p + 1 : Nat) : Int) }) := by
  have hscan := scan_back_found s.queue p hnl s.qsize hp hlast
  have h0 : (0 : Int) ≤ (p : Int) := Int.ofNat_nonneg p
  have h1 : ((p : Int) + 1).toNat = p + 1 := by omega
  unfold client_recv
  simp only [he, if_false, hscan, h0, if_true, h1]

/-- Without a newline in the logical content `client_recv` changes nothing. -/
theorem client_recv_no_newline (s : State)
    (h : ∀ i, i < s.qsize → s.queue i ≠ NEWLINE) : client_recv s = (none, s) := by
  have hscan := scan_back_none s.queue s.qsize h
  unfold client_recv
  by_cases he : s.client_enabled = 0
  · simp [he]
  · simp [he, hscan]

theorem content_state_holding (bytes : List Nat) : content (state_holding bytes) = bytes := by
  apply List.ext_getElem?
  intro i
  rw [content_getElem?]
  by_cases h : i < bytes.length
  · simp [state_holding, h, List.getD_eq_getElem?_getD, List.getElem?_eq_getElem]
  · have h2 : bytes.length ≤ i := by omega
    simp [state_holding, h, List.getElem?_eq_none h2]

/-- The block returned and the content left by `client_recv` on an enabled
client whose rightmost newline sits at offset `p`. -/
theorem client_recv_content_at (s : State) (p : Nat) (he : s.client_enabled ≠ 0)
    (hp : p < s.qsize) (hnl : s.queue p = NEWLINE)
    (hlast : ∀ j, p < j → j < s.qsize → s.queue j ≠ NEWLINE) :
    (client_recv s).1 = some ((content s).take (p + 1) ++ [NUL]) ∧
    content (client_recv s).2 = (content s).drop (p + 1) ∧
    (client_recv s).2.qsize = s.qsize - (p + 1) ∧
    (client_recv s).2.client_enabled = s.client_enabled := by
  rw [client_recv_at s p he hp hnl hlast]
  have htake : (content s).take (p + 1) = (List.range (p + 1)).map s.queue :=
    map_range_take s.queue s.qsize (p + 1) hp
  refine ⟨?_, ?_, rfl, rfl⟩
  · rw [htake]
  · show (List.range (s.qsize - (p + 1))).map (memmove s.queue (p + 1) (s.qsize - (p + 1))) = _
    unfold content
    rw [map_range_drop]
    apply List.map_congr_left
    intro i hi
    have hi2 : i < s.qsize - (p + 1) := List.mem_range.mp hi
    simp [memmove, hi2]

/-- The same, with the content given as `front ++ [NEWLINE] ++ rest` where
`rest` holds no newline. -/
theorem client_recv_split (s : State) (front rest : List Nat)
    (he : s.client_enabled ≠ 0)
    (hc : content s = front ++ [NEWLINE] ++ rest) (hrest : NEWLINE ∉ rest) :
    (client_recv s).1 = some (front ++ [NEWLINE] ++ [NUL]) ∧
    content (client_recv s).2 = rest ∧
    (client_recv s).2.qsize = rest.length ∧
    (client_recv s).2.client_enabled = s.client_enabled := by
  have hlen : s.qsize = front.length + 1 + rest.length := by
    rw [← content_length, hc]
    simp only [List.length_append, List.length_singleton]
  have hget : ∀ i, i < s.qsize → s.queue i = (front ++ [NEWLINE] ++ rest).getD i 0 := by
    intro i hi
    have h := content_getElem? s i
    rw [if_pos hi, hc] at h
    rw [List.getD_eq_getElem?_getD, h]
    rfl
  have hp : front.length < s.qsize := by omega
  have hq : s.queue front.length = NEWLINE := by
    rw [hget _ hp, List.append_assoc, List.getD_eq_getElem?_getD,
      List.getElem?_append_right (Nat.le_refl _)]
    simp
  have hl : ∀ j, front.length < j → j < s.qsize → s.queue j ≠ NEWLINE := by
    intro j h1 h2 h3
    apply hrest
    rw [hget _ h2] at h3
    have h4 : front.length + 1 ≤ j := h1
    have h5 : j - (front.length + 1) < rest.length := by omega
    rw [List.getD_eq_getElem?_getD,
      List.getElem?_append_right (by simpa using h4)] at h3
    simp only [List.length_append, List.length_singleton] at h3
    rw [List.getElem?_eq_getElem h5] at h3
    simp only [Option.getD_some] at h3
    rw [← h3]
    exact List.getElem_mem h5
  obtain ⟨h1, h2, h3, h4⟩ := client_recv_content_at s front.length he hp hq hl
  have htake : (content s).take (front.length + 1) = front ++ [NEWLINE] := by
    rw [hc]
    exact List.take_left' (by simp)
  have hdrop : (content s).drop (front.length + 1) = rest := by
    rw [hc]
    exact List.drop_left' (by simp)
  refine ⟨?_, ?_, ?_, h4⟩
  · rw [h1, htake]
  · rw [h2, hdrop]
  · rw [h3]
    omega

/-- A successful `client_recv` means the client is enabled and the content
splits at its rightmost newline. -/
theorem client_recv_some (s : State) (block : List Nat)
    (h : (client_recv s).1 = some block) :
    s.client_enabled ≠ 0 ∧ ∃ p, p < s.qsize ∧ s.queue p = NEWLINE ∧
      ∀ j, p < j → j < s.qsize → s.queue j ≠ NEWLINE := by
  by_cases he : s.client_enabled = 0
  · simp [client_recv, he] at h
  · refine ⟨he, ?_⟩
    rcases scan_back_spec s.queue s.qsize with ⟨_, h2⟩ | ⟨p, hp, _, h2, h3⟩
    · rw [client_recv_no_newline s h2] at h
      exact Option.noConfusion h
    · exact ⟨p, hp, h2, h3⟩

/-- A `client_recv` that returns the null pointer leaves the state alone. -/
theorem client_recv_none (s : State) (h : (client_recv s).1 = none) :
    (client_recv s).2 = s := by
  by_cases he : s.client_enabled = 0
  · simp [client_recv, he]
  · rcases scan_back_spec s.queue s.qsize with ⟨_, h2⟩ | ⟨p, hp, _, h2, h3⟩
    · rw [client_recv_no_newline s h2]
    · rw [client_recv_at s p he hp h2 h3] at h
      exact Option.noConfusion h

/-- A successful append attempt puts the chunk behind the old content. -/
theorem recv_worker_append_fits (s : State) (data : List Nat)
    (h : s.qsize + data.length < QUEUE_SIZE) :
    (recv_worker_append s data).1 = true ∧
    content (recv_worker_append s data).2 = content s ++ data ∧
    (recv_worker_append s data).2.qsize = s.qsize + data.length ∧
    (recv_worker_append s data).2.client_enabled = s.client_enabled := by
  unfold recv_worker_append
  rw [if_pos h]
  refine ⟨rfl, ?_, rfl, rfl⟩
  show (List.range (s.qsize + data.length)).map (memcpy s.queue s.qsize (data ++ [NUL])) = _
  unfold content
  rw [← map_range_append s.queue s.qsize data]
  apply List.map_congr_left
  intro i hi
  have hi2 : i < s.qsize + data.length := List.mem_range.mp hi
  by_cases h1 : i < s.qsize
  · have h2 : ¬ s.qsize ≤ i := by omega
    simp [memcpy, h1, h2]
  · have h2 : s.qsize ≤ i := by omega
    have h3 : i < s.qsize + (data.length + 1) := by omega
    have h4 : i - s.qsize < data.length := by omega
    simp [memcpy, h1, h2, h3, List.getD_eq_getElem?_getD, List.getElem?_append_left h4]

/-- A rejected append attempt leaves the state alone. -/
theorem recv_worker_append_full (s : State) (data : List Nat)
    (h : ¬ s.qsize + data.length < QUEUE_SIZE) :
    recv_worker_append s data = (false, s) := by
  simp [recv_worker_append, h]

theorem client_start_enabled (s : State) (he : s.client_enabled ≠ 0) :
    content (client_start s) = [] ∧ (client_start s).qsize = 0 ∧
    (client_start s).client_enabled = s.client_enabled := by
  simp [client_start, he, content]

/-- The trace invariant of an interleaving: the payloads handed out so far
followed by the buffered content are the chunks appended so far, and every
payload handed out ends in a newline. -/
theorem step_invariant (st : State × Trace) (e : Event)
    (hcat : (st.2.returned.map payload).flatten ++ content st.1 = st.2.appended.flatten)
    (hnl : ∀ b, b ∈ st.2.returned → (payload b).getLast? = some NEWLINE) :
    ((step st e).2.returned.map payload).flatten ++ content (step st e).1
        = (step st e).2.appended.flatten ∧
    (∀ b, b ∈ (step st e).2.returned → (payload b).getLast? = some NEWLINE) ∧
    (∀ data, e = Event.append data → st.1.qsize + data.length < QUEUE_SIZE →
      (step st e).2.appended = st.2.appended ++ [data]) ∧
    (e = Event.recv → (step st e).2.appended = st.2.appended) := by
  cases e with
  | append data =>
    by_cases hfit : st.1.qsize + data.length < QUEUE_SIZE
    · obtain ⟨h1, h2, _, _⟩ := recv_worker_append_fits st.1 data hfit
      refine ⟨?_, hnl, ?_, fun h => Event.noConfusion h⟩
      · show (st.2.returned.map payload).flatten ++ content (recv_worker_append st.1 data).2
          = (if (recv_worker_append st.1 data).1 = true then st.2.appended ++ [data]
              else st.2.appended).flatten
        rw [h1, h2, if_pos rfl, ← List.append_assoc, hcat]
        simp
      · intro d hd _
        cases hd
        show (if (recv_worker_append st.1 data).1 = true then st.2.appended ++ [data]
              else st.2.appended) = _
        rw [h1, if_pos rfl]
    · have h := recv_worker_append_full st.1 data hfit
      refine ⟨?_, hnl, ?_, fun h => Event.noConfusion h⟩
      · show (st.2.returned.map payload).flatten ++ content (recv_worker_append st.1 data).2
          = (if (recv_worker_append st.1 data).1 = true then st.2.appended ++ [data]
              else st.2.appended).flatten
        rw [h]
        simpa using hcat
      · intro d hd hd2
        cases hd
        exact absurd hd2 hfit
  | recv =>
    cases hr : (client_recv st.1).1 with
    | none =>
      have h := client_recv_none st.1 hr
      have hstep : step st Event.recv = (st.1, st.2) := by
        simp only [step, hr, h]
      rw [hstep]
      exact ⟨hcat, hnl, fun d hd => Event.noConfusion hd, fun _ => rfl⟩
    | some block =>
      obtain ⟨he, p, hp, hq, hl⟩ := client_recv_some st.1 block hr
      obtain ⟨h1, h2, _, _⟩ := client_recv_content_at st.1 p he hp hq hl
      have hb : block = (content st.1).take (p + 1) ++ [NUL] := by
        rw [hr] at h1
        exact Option.some.inj h1
      have hpay : payload block = (content st.1).take (p + 1) := by
        rw [hb]
        exact List.dropLast_concat
      have hlast : (payload block).getLast? = some NEWLINE := by
        have hlen : ((content st.1).take (p + 1)).length - 1 = p := by
          rw [List.length_take, content_length]
          omega
        rw [hpay, List.getLast?_eq_getElem?, hlen, List.getElem?_take,
          if_pos (Nat.lt_succ_self p), content_getElem?, if_pos hp, hq]
      have hstep : step st Event.recv =
          ((client_recv st.1).2, { st.2 with returned := st.2.returned ++ [block] }) := by
        simp only [step, hr]
      rw [hstep]
      refine ⟨?_, ?_, fun d hd => Event.noConfusion hd, fun _ => rfl⟩
      · show ((st.2.returned ++ [block]).map payload).flatten ++ content (client_recv st.1).2
          = st.2.appended.flatten
        rw [h2, ← hcat, List.map_append, List.flatten_append, List.append_assoc]
        congr 1
        simp [hpay]
      · intro b hb2
        rcases List.mem_append.mp hb2 with h | h
        · exact hnl b h
        · rw [List.mem_singleton.mp h]
          exact hlast

/-- The invariant along a whole event sequence; when the chunks still to be
offered fit behind those already appended, every append attempt succeeds. -/
theorem foldl_step_invariant (events : List Event) :
    ∀ st : State × Trace,
    (st.2.returned.map payload).flatten ++ content st.1 = st.2.appended.flatten →
    (∀ b, b ∈ st.2.returned → (payload b).getLast? = some NEWLINE) →
    st.2.appended.flatten.length + (offered events).flatten.length < QUEUE_SIZE →
    ((events.foldl step st).2.returned.map payload).flatten ++ content (events.foldl step st).1
        = (events.foldl step st).2.appended.flatten ∧
    (∀ b, b ∈ (events.foldl step st).2.returned → (payload b).getLast? = some NEWLINE) ∧
    (events.foldl step st).2.appended = st.2.appended ++ offered events := by
  induction events with
  | nil =>
    intro st hcat hnl _
    exact ⟨hcat, hnl, by simp [offered]⟩
  | cons e es ih =>
    intro st hcat hnl hfit
    obtain ⟨h1, h2, h3, h4⟩ := step_invariant st e hcat hnl
    have hq : st.1.qsize ≤ st.2.appended.flatten.length := by
      rw [← hcat, List.length_append, content_length]
      omega
    cases e with
    | append data =>
      have hroom : st.1.qsize + data.length < QUEUE_SIZE := by
        simp only [offered, List.flatten_cons, List.length_append] at hfit
        omega
      have happ := h3 data rfl hroom
      have hfit2 : (step st (Event.append data)).2.appended.flatten.length
          + (offered es).flatten.length < QUEUE_SIZE := by
        rw [happ]
        simp only [offered, List.flatten_cons, List.length_append, List.flatten_append,
          List.flatten_nil, List.append_nil] at hfit ⊢
        omega
      obtain ⟨i1, i2, i3⟩ := ih (step st (Event.append data)) h1 h2 hfit2
      refine ⟨i1, i2, ?_⟩
      show (es.foldl step (step st (Event.append data))).2.appended = _
      rw [i3, happ]
      simp [offered]
    | recv =>
      have happ := h4 rfl
      have hfit2 : (step st Event.recv).2.appended.flatten.length
          + (offered es).flatten.length < QUEUE_SIZE := by
        rw [happ]
        simpa [offered] using hfit
      obtain ⟨i1, i2, i3⟩ := ih (step st Event.recv) h1 h2 hfit2
      refine ⟨i1, i2, ?_⟩
      show (es.foldl step (step st Event.recv)).2.appended = _
      rw [i3, happ]
      simp [offered]

/-! ## C1: a drain returns everything through the rightmost newline -/

/-- C1. On an enabled client whose logical content has its rightmost newline at
index `p`, `client_recv` returns a block holding exactly the bytes at indices
`0 .. p` (that is `p + 1` bytes, the last one being that newline) followed by
the terminator, and afterwards the logical content is exactly the former bytes
at indices `p + 1 .. L - 1`, in order, stored from offset `0`, with the new
length `L - (p + 1)`. -/
theorem client_recv_through_last_newline (s : State) (p : Nat)
    (he : s.client_enabled ≠ 0)
    (hnl : (content s)[p]? = some NEWLINE)
    (hlast : ∀ j, p < j → (content s)[j]? ≠ some NEWLINE) :
    (client_recv s).1 = some ((content s).take (p + 1) ++ [NUL]) ∧
    ((content s).take (p + 1)).length = p + 1 ∧
    ((content s).take (p + 1)).getLast? = some NEWLINE ∧
    content (client_recv s).2 = (content s).drop (p + 1) ∧
    (client_recv s).2.qsize = s.qsize - (p + 1) ∧
    (∀ i, i < s.qsize - (p + 1) → (client_recv s).2.queue i = s.queue (p + 1 + i)) := by
  have hp : p < s.qsize := by
    by_contra hc
    rw [content_getElem?, if_neg hc] at hnl
    exact Option.noConfusion hnl
  have hq : s.queue p = NEWLINE := by
    rw [content_getElem?, if_pos hp] at hnl
    exact Option.some.inj hnl
  have hl : ∀ j, p < j → j < s.qsize → s.queue j ≠ NEWLINE := by
    intro j h1 h2 h3
    apply hlast j h1
    rw [content_getElem?, if_pos h2, h3]
  rw [client_recv_at s p he hp hq hl]
  have htake : (content s).take (p + 1) = (List.range (p + 1)).map s.queue :=
    map_range_take s.queue s.qsize (p + 1) hp
  refine ⟨?_, ?_, ?_, ?_, rfl, ?_⟩
  · rw [htake]
  · rw [htake]
    simp
  · rw [htake, List.getLast?_eq_getElem?, map_range_getElem?]
    simp [hq]
  · show (List.range (s.qsize - (p + 1))).map (memmove s.queue (p + 1) (s.qsize - (p + 1))) = _
    unfold content
    rw [map_range_drop]
    apply List.map_congr_left
    intro i hi
    have hi2 : i < s.qsize - (p + 1) := List.mem_range.mp hi
    simp [memmove, hi2]
  · intro i hi
    simp [memmove, hi, Nat.add_comm]

/-- C1 at the buffer `"A,B\nC"`: the rightmost newline is at index 3. -/
theorem client_recv_through_last_newline_witness :
    (client_recv (state_holding [65, 44, 66, 10, 67])).1 = some ([65, 44, 66, 10] ++ [NUL]) ∧
    content (client_recv (state_holding [65, 44, 66, 10, 67])).2 = [67] ∧
    (client_recv (state_holding [65, 44, 66, 10, 67])).2.qsize = 1 := by
  have h := client_recv_through_last_newline (state_holding [65, 44, 66, 10, 67]) 3
    (by decide) (by rw [content_state_holding]; rfl)
    (by
      intro j hj
      rw [content_state_holding]
      match j, hj with
      | 4, _ => decide
      | j + 5, _ => simp)
  rw [content_state_holding] at h
  exact ⟨h.1, h.2.2.2.1, h.2.2.2.2.1⟩

/-! ## C2: without a newline a drain is a no-op -/

/-- C2. Whenever the logical content holds no newline byte (the empty buffer
included) `client_recv` returns the null pointer and the state after the call
is the state before it: content, `qsize` and `bytes_received` are unchanged. -/
theorem client_recv_none_without_newline (s : State)
    (h : NEWLINE ∉ content s) :
    (client_recv s).1 = none ∧ (client_recv s).2 = s ∧
    content (client_recv s).2 = content s ∧
    (client_recv s).2.qsize = s.qsize ∧
    (client_recv s).2.bytes_received = s.bytes_received := by
  have hq : ∀ i, i < s.qsize → s.queue i ≠ NEWLINE := by
    intro i hi hc
    apply h
    rw [← hc]
    exact List.mem_map.mpr ⟨i, List.mem_range.mpr hi, rfl⟩
  rw [client_recv_no_newline s hq]
  exact ⟨rfl, rfl, rfl, rfl, rfl⟩

/-- C2 at the empty buffer and at the buffer `"C,D"`. -/
theorem client_recv_none_without_newline_witness :
    client_recv (state_holding []) = (none, state_holding []) ∧
    client_recv (state_holding [67, 44, 68]) = (none, state_holding [67, 44, 68]) := by
  have h1 := client_recv_none_without_newline (state_holding [])
    (by rw [content_state_holding]; decide)
  have h2 := client_recv_none_without_newline (state_holding [67, 44, 68])
    (by rw [content_state_holding]; decide)
  exact ⟨Prod.ext h1.1 h1.2.1, Prod.ext h2.1 h2.2.1⟩

/-! ## C3: drains reconstruct the appended stream -/

/-- C3. From the empty buffer made by `client_start` (client enabled), for every
interleaving of append attempts and `client_recv` calls in which the chunks
offered have total size below `QUEUE_SIZE`: every append attempt succeeds, the
payloads of the returned blocks, concatenated in call order and followed by the
final buffer content, are byte for byte the concatenation of all chunks offered,
and every returned payload ends in a newline. -/
theorem run_reconstructs_stream (s0 : State) (events : List Event)
    (he : s0.client_enabled ≠ 0)
    (hfit : (offered events).flatten.length < QUEUE_SIZE) :
    ((run (client_start s0) events).2.returned.map payload).flatten
        ++ content (run (client_start s0) events).1 = (offered events).flatten ∧
    (∀ b, b ∈ (run (client_start s0) events).2.returned →
      (payload b).getLast? = some NEWLINE) ∧
    (run (client_start s0) events).2.appended = offered events := by
  obtain ⟨hc, _, _⟩ := client_start_enabled s0 he
  have h := foldl_step_invariant events (client_start s0, { returned := [], appended := [] })
    (by simp [hc]) (by intro b hb; cases hb) (by simpa using hfit)
  obtain ⟨h1, h2, h3⟩ := h
  have h4 : (run (client_start s0) events).2.appended = offered events := by
    simpa [run] using h3
  refine ⟨?_, h2, h4⟩
  rw [← h4]
  exact h1

/-- C3 on the interleaving append `"A\nB"`, drain, drain, append `"C\nD"`,
drain: the drains hand out `"A\n"`, nothing, `"BC\n"`, and `"D"` stays buffered. -/
theorem run_reconstructs_stream_witness :
    ((run (client_start (state_holding []))
        [Event.append [65, 10, 66], Event.recv, Event.recv,
          Event.append [67, 10, 68], Event.recv]).2.returned.map payload).flatten
      ++ content (run (client_start (state_holding []))
        [Event.append [65, 10, 66], Event.recv, Event.recv,
          Event.append [67, 10, 68], Event.recv]).1 = [65, 10, 66, 67, 10, 68] :=
  (run_reconstructs_stream (state_holding [])
    [Event.append [65, 10, 66], Event.recv, Event.recv,
      Event.append [67, 10, 68], Event.recv] (by decide) (by decide)).1

/-! ## C4: an append attempt succeeds exactly when there is room -/

/-- C4. One append attempt of the receiver with a chunk of `n` bytes on a
buffer of length `L` succeeds exactly when `L + n < QUEUE_SIZE`; on success the
content is the old content followed by the chunk and the length is `L + n`; on
rejection the state (content and length included) is unchanged, and after any
number of drains that bring the length down to some `L'` with
`L' + n < QUEUE_SIZE` the same attempt succeeds. -/
theorem recv_worker_append_iff_room (s : State) (data : List Nat) :
    ((recv_worker_append s data).1 = true ↔ s.qsize + data.length < QUEUE_SIZE) ∧
    (s.qsize + data.length < QUEUE_SIZE →
      content (recv_worker_append s data).2 = content s ++ data ∧
      (recv_worker_append s data).2.qsize = s.qsize + data.length) ∧
    (¬ s.qsize + data.length < QUEUE_SIZE →
      (recv_worker_append s data).2 = s ∧
      content (recv_worker_append s data).2 = content s ∧
      (recv_worker_append s data).2.qsize = s.qsize) ∧
    (∀ k, (drains k s).qsize + data.length < QUEUE_SIZE →
      (recv_worker_append (drains k s) data).1 = true ∧
      content (recv_worker_append (drains k s) data).2 = content (drains k s) ++ data ∧
      (recv_worker_append (drains k s) data).2.qsize = (drains k s).qsize + data.length) := by
  refine ⟨?_, ?_, ?_, ?_⟩
  · by_cases h : s.qsize + data.length < QUEUE_SIZE
    · simp [h, (recv_worker_append_fits s data h).1]
    · simp [h, recv_worker_append_full s data h]
  · intro h
    exact ⟨(recv_worker_append_fits s data h).2.1, (recv_worker_append_fits s data h).2.2.1⟩
  · intro h
    rw [recv_worker_append_full s data h]
    exact ⟨rfl, rfl, rfl⟩
  · intro k h
    obtain ⟨h1, h2, h3, _⟩ := recv_worker_append_fits (drains k s) data h
    exact ⟨h1, h2, h3⟩

/-- C4 on a buffer of `QUEUE_SIZE - 1` bytes ending in a newline and the chunk
`"B"`: the attempt is rejected, and after one drain it succeeds. -/
theorem recv_worker_append_iff_room_witness :
    (recv_worker_append state_nearly_full [66]).1 = false ∧
    (recv_worker_append state_nearly_full [66]).2 = state_nearly_full ∧
    (recv_worker_append (drains 1 state_nearly_full) [66]).1 = true := by
  have h := recv_worker_append_iff_room state_nearly_full [66]
  have hfull : ¬ state_nearly_full.qsize + [66].length < QUEUE_SIZE := by decide
  have hdrained : (drains 1 state_nearly_full).qsize + [66].length < QUEUE_SIZE := by
    have hd := client_recv_content_at state_nearly_full 1048574 (by decide) (by decide)
      (by simp [state_nearly_full])
      (by
        intro j h1 h2
        have h3 : j < 1048575 := h2
        omega)
    show (client_recv state_nearly_full).2.qsize + 1 < 1048576
    rw [hd.2.2.1]
    decide
  refine ⟨?_, (h.2.2.1 hfull).1, (h.2.2.2 1 hdrained).1⟩
  cases hb : (recv_worker_append state_nearly_full [66]).1
  · rfl
  · exact absurd (h.1.mp hb) hfull

/-! ## C5: the pending partial line survives a drain -/

/-- C5. On an enabled client whose content is `X ++ "\n" ++ Y` with no newline
in `Y`, `client_recv` returns `X ++ "\n"` (then the terminator) and leaves
exactly `Y` buffered; when a chunk `W` ending in a newline is then appended and
fits, the next `client_recv` returns exactly `Y ++ W` and empties the buffer. -/
theorem partial_line_survives (s : State) (X Y : List Nat)
    (he : s.client_enabled ≠ 0)
    (hc : content s = X ++ [NEWLINE] ++ Y) (hY : NEWLINE ∉ Y) :
    (client_recv s).1 = some (X ++ [NEWLINE] ++ [NUL]) ∧
    content (client_recv s).2 = Y ∧
    ∀ W, W.getLast? = some NEWLINE →
      (client_recv s).2.qsize + W.length < QUEUE_SIZE →
      (recv_worker_append (client_recv s).2 W).1 = true ∧
      (client_recv (recv_worker_append (client_recv s).2 W).2).1 = some (Y ++ W ++ [NUL]) ∧
      content (client_recv (recv_worker_append (client_recv s).2 W).2).2 = [] := by
  obtain ⟨h1, h2, _, h4⟩ := client_recv_split s X Y he hc hY
  refine ⟨h1, h2, ?_⟩
  intro W hW hfit
  obtain ⟨a1, a2, _, a4⟩ := recv_worker_append_fits (client_recv s).2 W hfit
  have hW2 : W = W.dropLast ++ [NEWLINE] := (List.dropLast_append_getLast? NEWLINE hW).symm
  have hc2 : content (recv_worker_append (client_recv s).2 W).2
      = (Y ++ W.dropLast) ++ [NEWLINE] ++ [] := by
    rw [a2, h2, List.append_nil, List.append_assoc, ← hW2]
  have he2 : (recv_worker_append (client_recv s).2 W).2.client_enabled ≠ 0 := by
    rw [a4, h4]
    exact he
  obtain ⟨b1, b2, _, _⟩ := client_recv_split _ (Y ++ W.dropLast) [] he2 hc2
    (List.not_mem_nil _)
  refine ⟨a1, ?_, b2⟩
  rw [b1, List.append_assoc Y, ← hW2]

/-- C5 on the example of the specification: after appending `"A,B\nC,D"` a
drain returns `"A,B\n"` and leaves `"C,D"`; after appending `"\n"` the next
drain returns `"C,D\n"`. -/
theorem partial_line_survives_witness :
    (client_recv (state_holding [65, 44, 66, 10, 67, 44, 68])).1
      = some ([65, 44, 66, 10] ++ [NUL]) ∧
    content (client_recv (state_holding [65, 44, 66, 10, 67, 44, 68])).2 = [67, 44, 68] ∧
    (client_recv (recv_worker_append
      (client_recv (state_holding [65, 44, 66, 10, 67, 44, 68])).2 [10]).2).1
      = some ([67, 44, 68, 10] ++ [NUL]) := by
  have h := partial_line_survives (state_holding [65, 44, 66, 10, 67, 44, 68])
    [65, 44, 66] [67, 44, 68] (by decide) (by rw [content_state_holding]; rfl) (by decide)
  have hq : (client_recv (state_holding [65, 44, 66, 10, 67, 44, 68])).2.qsize + [10].length
      < QUEUE_SIZE := by
    have h3 := content_length (client_recv (state_holding [65, 44, 66, 10, 67, 44, 68])).2
    rw [h.2.1] at h3
    rw [← h3]
    decide
  exact ⟨h.1, h.2.1, (h.2.2 [10] rfl hq).2.1⟩

/-! ## C6: a buffer ending in a newline is drained whole -/

/-- C6. On an enabled client whose non-empty content ends in a newline, one
`client_recv` returns the entire content (then the terminator) and leaves the
buffer empty, `qsize = 0`. -/
theorem client_recv_whole_buffer (s : State)
    (he : s.client_enabled ≠ 0)
    (h : (content s).getLast? = some NEWLINE) :
    (client_recv s).1 = some (content s ++ [NUL]) ∧
    content (client_recv s).2 = [] ∧
    (client_recv s).2.qsize = 0 := by
  have hc : content s = (content s).dropLast ++ [NEWLINE] ++ [] := by
    rw [List.append_nil]
    exact (List.dropLast_append_getLast? NEWLINE h).symm
  obtain ⟨h1, h2, h3, _⟩ := client_recv_split s (content s).dropLast [] he hc
    (List.not_mem_nil _)
  refine ⟨?_, h2, h3⟩
  rw [h1, ← List.append_nil ((content s).dropLast ++ [NEWLINE]), ← hc]

/-- C6 on the example of the specification: `client_start`, one append of
`"A,B\nC,D\n"`, one drain, which returns exactly `"A,B\nC,D\n"`. -/
theorem client_recv_whole_buffer_witness :
    (client_recv (recv_worker_append (client_start (state_holding []))
      [65, 44, 66, 10, 67, 44, 68, 10]).2).1
      = some ([65, 44, 66, 10, 67, 44, 68, 10] ++ [NUL]) ∧
    content (client_recv (recv_worker_append (client_start (state_holding []))
      [65, 44, 66, 10, 67, 44, 68, 10]).2).2 = [] := by
  obtain ⟨c1, c2, c3⟩ := client_start_enabled (state_holding []) (by decide)
  obtain ⟨a1, a2, a3, a4⟩ := recv_worker_append_fits (client_start (state_holding []))
    [65, 44, 66, 10, 67, 44, 68, 10] (by rw [c2]; decide)
  rw [c1] at a2
  have h := client_recv_whole_buffer
    (recv_worker_append (client_start (state_holding [])) [65, 44, 66, 10, 67, 44, 68, 10]).2
    (by rw [a4, c3]; decide) (by rw [a2]; rfl)
  rw [a2] at h
  exact ⟨h.1, h.2.1⟩

/-! ## C7: a successful drain leaves no complete line behind -/

/-- C7. Whenever `client_recv` returns a block, the content left in the buffer
holds no newline byte, the returned payload followed by that residue is the
content before the call, and a second `client_recv` with no append in between
returns the null pointer and changes nothing. -/
theorem client_recv_drains_all_lines (s : State) (block : List Nat)
    (h : (client_recv s).1 = some block) :
    NEWLINE ∉ content (client_recv s).2 ∧
    payload block ++ content (client_recv s).2 = content s ∧
    client_recv (client_recv s).2 = (none, (client_recv s).2) := by
  obtain ⟨he, p, hp, hq, hl⟩ := client_recv_some s block h
  obtain ⟨h1, h2, _, _⟩ := client_recv_content_at s p he hp hq hl
  have hnone : NEWLINE ∉ content (client_recv s).2 := by
    rw [h2]
    intro hmem
    obtain ⟨i, hi⟩ := List.mem_iff_getElem?.mp hmem
    rw [List.getElem?_drop, content_getElem?] at hi
    by_cases hlt : p + 1 + i < s.qsize
    · rw [if_pos hlt] at hi
      exact hl (p + 1 + i) (by omega) hlt (Option.some.inj hi)
    · rw [if_neg hlt] at hi
      exact Option.noConfusion hi
  refine ⟨hnone, ?_, ?_⟩
  · have hb : block = (content s).take (p + 1) ++ [NUL] := by
      rw [h] at h1
      exact Option.some.inj h1
    rw [h2, hb]
    show ((content s).take (p + 1) ++ [NUL]).dropLast ++ _ = _
    rw [List.dropLast_concat, List.take_append_drop]
  · apply client_recv_no_newline
    intro i hi hc
    apply hnone
    rw [← hc]
    exact List.mem_map.mpr ⟨i, List.mem_range.mpr hi, rfl⟩

/-- C7 on the buffer `"A\nB\nC"`: the drain returns `"A\nB\n"`, the residue
`"C"` has no newline and the next drain returns the null pointer. -/
theorem client_recv_drains_all_lines_witness :
    (client_recv (state_holding [65, 10, 66, 10, 67])).1 = some [65, 10, 66, 10, 0] ∧
    NEWLINE ∉ content (client_recv (state_holding [65, 10, 66, 10, 67])).2 ∧
    (client_recv (client_recv (state_holding [65, 10, 66, 10, 67])).2).1 = none := by
  have h0 : (client_recv (state_holding [65, 10, 66, 10, 67])).1 = some [65, 10, 66, 10, 0] := by
    have hs := client_recv_split (state_holding [65, 10, 66, 10, 67]) [65, 10, 66] [67]
      (by decide) (by rw [content_state_holding]; rfl) (by decide)
    exact hs.1
  have h := client_recv_drains_all_lines (state_holding [65, 10, 66, 10, 67])
    [65, 10, 66, 10, 0] h0
  exact ⟨h0, h.1, by rw [h.2.2]⟩

/-! ## C8: the send loop -/

/-- C8 (what the code does at the failing input).  With the two bytes `"V\n"`
to send and a primitive that accepts one byte per call, the first call makes
`count = 1` and `length = 1`, the loop test `count < length` fails, and
`client_sendall` returns `0` with only the byte `'V'` accepted and `bytes_sent`
raised by one: the second byte is never handed to the primitive. -/
theorem client_sendall_stops_halfway :
    (client_sendall (fun _ _ => 1) 8 (state_holding []) [86, 10] 2).map
      (fun r => (r.ret, r.wire, r.state.bytes_sent)) = some (0, [86], 1) := by
  decide

/-- The loop of `client_sendall` when the primitive accepts the whole request
in one call: everything is sent and `0` is returned. -/
theorem client_sendall_single_call (s : State) (data : List Nat)
    (he : s.client_enabled ≠ 0) (hne : data ≠ []) :
    client_sendall (fun _ len => len) 2 s data data.length
      = some { ret := 0
               state := { s with bytes_sent := int_add s.bytes_sent data.length }
               wire := data } := by
  have hpos : (0 : Int) < (data.length : Int) := by
    have := List.length_pos.mpr hne
    omega
  have hneg : ((data.length : Int)) ≠ -1 := by omega
  simp [client_sendall, client_sendall_loop, he, hpos, hneg]

/-! ## C9 and C10: throttling of position updates -/

/-- A `client_position` call on an enabled client whose new pose is at squared
distance at least `0.0001` from the stored one hands the `P` line of the new
pose to `client_send` and stores the new pose. -/
theorem client_position_sends (s : State) (x y z rx ry : ℚ)
    (he : s.client_enabled ≠ 0)
    (hd : 1 / 10000 ≤ pose_distance s.px s.py s.pz s.prx s.pry x y z rx ry) :
    client_position s x y z rx ry =
      (some (snprintf 1024 (position_text x y z rx ry)),
        { s with px := x, py := y, pz := z, prx := rx, pry := ry }) := by
  have h : ¬ pose_distance s.px s.py s.pz s.prx s.pry x y z rx ry < 1 / 10000 :=
    not_lt.mpr hd
  simp only [client_position, he, if_false, h]

/-- A `client_position` call whose new pose is at squared distance below
`0.0001` from the stored one does nothing. -/
theorem client_position_suppressed (s : State) (x y z rx ry : ℚ)
    (hd : pose_distance s.px s.py s.pz s.prx s.pry x y z rx ry < 1 / 10000) :
    client_position s x y z rx ry = (none, s) := by
  by_cases he : s.client_enabled = 0
  · simp only [client_position, he, if_true]
  · simp only [client_position, he, if_false, hd, if_true]

/-- C9 (the claim as stated fails).  From the fresh, enabled process: two calls
with the pose `(0,0,0,0,0)`, at squared distance `0` from each other, transmit
nothing at all, the first call being suppressed as well; and the calls with
`(1,0,0,0,0)` then `(1.01,0,0,0,0)`, at squared distance exactly `0.0001` from
each other, both transmit. -/
theorem client_position_claim_fails :
    (pose_distance 0 0 0 0 0 0 0 0 0 0 ≤ 1 / 10000 ∧
      (client_position (client_enable initial) 0 0 0 0 0).1 = none ∧
      (client_position (client_position (client_enable initial) 0 0 0 0 0).2 0 0 0 0 0).1
        = none) ∧
    (pose_distance 1 0 0 0 0 (101 / 100) 0 0 0 0 ≤ 1 / 10000 ∧
      (client_position (client_enable initial) 1 0 0 0 0).1
        = some (snprintf 1024 (position_text 1 0 0 0 0)) ∧
      (client_position (client_position (client_enable initial) 1 0 0 0 0).2
          (101 / 100) 0 0 0 0).1
        = some (snprintf 1024 (position_text (101 / 100) 0 0 0 0))) := by
  have e : (client_enable initial).client_enabled ≠ 0 := by decide
  have a1 := client_position_suppressed (client_enable initial) 0 0 0 0 0
    (by norm_num [pose_distance, client_enable, initial])
  have b1 := client_position_sends (client_enable initial) 1 0 0 0 0 e
    (by norm_num [pose_distance, client_enable, initial])
  have b2 := client_position_sends (client_position (client_enable initial) 1 0 0 0 0).2
    (101 / 100) 0 0 0 0 (by rw [b1]; exact e)
    (by rw [b1]; norm_num [pose_distance])
  refine ⟨⟨by norm_num [pose_distance], ?_, ?_⟩, ⟨by norm_num [pose_distance], ?_, ?_⟩⟩
  · rw [a1]
  · rw [a1, a1]
  · rw [b1]
  · rw [b2]

/-- C9 (amended).  On an enabled client whose stored pose is the initial one
(all zero), for two consecutive `client_position` calls where the first pose is
at squared distance at least `0.0001` from the initial pose and the two poses
are at squared distance below `0.0001` from each other, exactly one `P` line is
handed to the send path: the first call sends the line of its pose, the second
call sends nothing and changes nothing. -/
theorem client_position_second_suppressed (s : State)
    (x1 y1 z1 rx1 ry1 x2 y2 z2 rx2 ry2 : ℚ)
    (he : s.client_enabled ≠ 0)
    (hfresh : s.px = 0 ∧ s.py = 0 ∧ s.pz = 0 ∧ s.prx = 0 ∧ s.pry = 0)
    (hfirst : 1 / 10000 ≤ pose_distance 0 0 0 0 0 x1 y1 z1 rx1 ry1)
    (hclose : pose_distance x1 y1 z1 rx1 ry1 x2 y2 z2 rx2 ry2 < 1 / 10000) :
    (client_position s x1 y1 z1 rx1 ry1).1
      = some (snprintf 1024 (position_text x1 y1 z1 rx1 ry1)) ∧
    (client_position (client_position s x1 y1 z1 rx1 ry1).2 x2 y2 z2 rx2 ry2).1 = none ∧
    (client_position (client_position s x1 y1 z1 rx1 ry1).2 x2 y2 z2 rx2 ry2).2
      = (client_position s x1 y1 z1 rx1 ry1).2 := by
  obtain ⟨h1, h2, h3, h4, h5⟩ := hfresh
  have a := client_position_sends s x1 y1 z1 rx1 ry1 he (by rw [h1, h2, h3, h4, h5]; exact hfirst)
  have b := client_position_suppressed (client_position s x1 y1 z1 rx1 ry1).2
    x2 y2 z2 rx2 ry2 (by rw [a]; exact hclose)
  rw [b, a]
  exact ⟨rfl, rfl, rfl⟩

/-- C9 (amended) from the fresh, enabled process with the poses `(1,0,0,0,0)`
and `(1.005,0,0,0,0)`. -/
theorem client_position_second_suppressed_witness :
    (client_position (client_enable initial) 1 0 0 0 0).1
      = some (snprintf 1024 (position_text 1 0 0 0 0)) ∧
    (client_position (client_position (client_enable initial) 1 0 0 0 0).2
      (201 / 200) 0 0 0 0).1 = none := by
  have h := client_position_second_suppressed (client_enable initial)
    1 0 0 0 0 (201 / 200) 0 0 0 0 (by decide) ⟨rfl, rfl, rfl, rfl, rfl⟩
    (by norm_num [pose_distance]) (by norm_num [pose_distance])
  exact ⟨h.1, h.2.1⟩

/-- C10. On an enabled client, whatever the stored (last sent) pose, a
`client_position` call whose new pose is at squared distance above `0.0001`
from it hands exactly the `P` line of the new pose to the send path, a buffer
that starts with `"P,"`, and the stored pose becomes the new pose (no other
static changes). -/
theorem client_position_transmits_far (s : State) (x y z rx ry : ℚ)
    (he : s.client_enabled ≠ 0)
    (hd : 1 / 10000 < pose_distance s.px s.py s.pz s.prx s.pry x y z rx ry) :
    (client_position s x y z rx ry).1 = some (snprintf 1024 (position_text x y z rx ry)) ∧
    (snprintf 1024 (position_text x y z rx ry)).take 2 = [80, 44] ∧
    (client_position s x y z rx ry).2
      = { s with px := x, py := y, pz := z, prx := rx, pry := ry } ∧
    (client_position s x y z rx ry).2.px = x ∧
    (client_position s x y z rx ry).2.py = y ∧
    (client_position s x y z rx ry).2.pz = z ∧
    (client_position s x y z rx ry).2.prx = rx ∧
    (client_position s x y z rx ry).2.pry = ry := by
  rw [client_position_sends s x y z rx ry he (le_of_lt hd)]
  refine ⟨rfl, ?_, rfl, rfl, rfl, rfl, rfl, rfl⟩
  simp [snprintf, position_text]

/-- C10 with the stored pose `(0,0,0,0,0)` and the new pose `(0,0,0,0,1)`. -/
theorem client_position_transmits_far_witness :
    (client_position (client_enable initial) 0 0 0 0 1).1
      = some (snprintf 1024 (position_text 0 0 0 0 1)) ∧
    (client_position (client_enable initial) 0 0 0 0 1).2.pry = 1 := by
  have h := client_position_transmits_far (client_enable initial) 0 0 0 0 1 (by decide)
    (by norm_num [pose_distance, client_enable, initial])
  exact ⟨h.1, h.2.2.2.2.2.2.2⟩

/-! ## C11: the disabled client -/

/-- C11. With `client_enabled = 0` every operation of the facade returns at
once: `client_connect` succeeds without looking at what the library calls
would return, `client_start` and `client_stop` return the state they were
given, `client_sendall` returns `0` and `client_send` returns without one call
of `send` (for every behaviour of the primitive and every iteration bound),
the eight message functions hand nothing to `client_send`, and `client_recv`
returns the null pointer; in each case the state after the call is the state
before it. -/
theorem disabled_client_is_inert (s : State) (h : s.client_enabled = 0) :
    (∀ host_found socket_result connect_result,
      client_connect s host_found socket_result connect_result = Except.ok s) ∧
    client_start s = s ∧
    client_stop s = s ∧
    (∀ send fuel data length,
      client_sendall send fuel s data length = some { ret := 0, state := s, wire := [] } ∧
      client_sendall_returns send fuel s length = []) ∧
    (∀ send fuel data,
      client_send send fuel s data = some { exited := false, state := s, wire := [] }) ∧
    (∀ version, client_version s version = (none, s)) ∧
    (∀ username identity_token, client_login s username identity_token = (none, s)) ∧
    (∀ x y z rx ry, client_position s x y z rx ry = (none, s)) ∧
    (∀ p q key, client_chunk s p q key = (none, s)) ∧
    (∀ x y z w, client_block s x y z w = (none, s)) ∧
    (∀ x y z w, client_light s x y z w = (none, s)) ∧
    (∀ x y z face text, client_sign s x y z face text = (none, s)) ∧
    (∀ text, client_talk s text = (none, s)) ∧
    client_recv s = (none, s) := by
  refine ⟨?_, ?_, ?_, ?_, ?_, ?_, ?_, ?_, ?_, ?_, ?_, ?_, ?_, ?_⟩
  · intro a b c
    simp only [client_connect, h, if_true]
  · simp only [client_start, h, if_true]
  · simp only [client_stop, h, if_true]
  · intro send fuel data length
    exact ⟨by simp only [client_sendall, h, if_true],
      by simp only [client_sendall_returns, h, if_true]⟩
  · intro send fuel data
    simp only [client_send, h, if_true]
  · intro v
    simp only [client_version, h, if_true]
  · intro u t
    simp only [client_login, h, if_true]
  · intro x y z rx ry
    simp only [client_position, h, if_true]
  · intro p q key
    simp only [client_chunk, h, if_true]
  · intro x y z w
    simp only [client_block, h, if_true]
  · intro x y z w
    simp only [client_light, h, if_true]
  · intro x y z face text
    simp only [client_sign, h, if_true]
  · intro text
    simp only [client_talk, h, if_true]
  · simp only [client_recv, h, if_true]

/-- C11 on a started client with `"A\n"` buffered that is then disabled. -/
theorem disabled_client_is_inert_witness :
    client_recv (client_disable (state_holding [65, 10]))
      = (none, client_disable (state_holding [65, 10])) ∧
    client_stop (client_disable (state_holding [65, 10]))
      = client_disable (state_holding [65, 10]) ∧
    client_talk (client_disable (state_holding [65, 10])) [104, 105]
      = (none, client_disable (state_holding [65, 10])) := by
  have h := disabled_client_is_inert (client_disable (state_holding [65, 10])) rfl
  exact ⟨h.2.2.2.2.2.2.2.2.2.2.2.2.2, h.2.2.1, h.2.2.2.2.2.2.2.2.2.2.2.2.1 [104, 105]⟩

/-! ## Lemmas on formatting -/

theorem digitChar_is_digit (m : Nat) :
    48 ≤ (Nat.digitChar (m % 10)).toNat ∧ (Nat.digitChar (m % 10)).toNat ≤ 57 := by
  have h : m % 10 < 10 := Nat.mod_lt m (by decide)
  interval_cases (m % 10) <;> decide

theorem toDigitsCore_digits (fuel : Nat) :
    ∀ (n : Nat) (ds : List Char), (∀ c, c ∈ ds → 48 ≤ c.toNat ∧ c.toNat ≤ 57) →
      ∀ c, c ∈ Nat.toDigitsCore 10 fuel n ds → 48 ≤ c.toNat ∧ c.toNat ≤ 57 := by
  induction fuel with
  | zero =>
    intro n ds h c hc
    exact h c (by simpa [Nat.toDigitsCore] using hc)
  | succ f ih =>
    intro n ds h c hc
    have hds : ∀ c, c ∈ Nat.digitChar (n % 10) :: ds → 48 ≤ c.toNat ∧ c.toNat ≤ 57 := by
      intro c hc
      rcases List.mem_cons.mp hc with h1 | h1
      · rw [h1]
        exact digitChar_is_digit n
      · exact h c h1
    unfold Nat.toDigitsCore at hc
    by_cases h0 : n / 10 = 0
    · simp only [h0, if_true] at hc
      exact hds c hc
    · simp only [h0, if_false] at hc
      exact ih (n / 10) _ hds c hc

/-- Every byte of `decimal n` is one of `'0' .. '9'`. -/
theorem decimal_digits (n b : Nat) (h : b ∈ decimal n) : 48 ≤ b ∧ b ≤ 57 := by
  obtain ⟨c, hc, rfl⟩ := List.mem_map.mp h
  exact toDigitsCore_digits (n + 1) n [] (fun c hc => absurd hc (List.not_mem_nil c)) c hc

theorem decimal_length (n : Nat) (h : n < 10 ^ 10) : (decimal n).length ≤ 10 := by
  unfold decimal
  rw [List.length_map]
  exact Nat.toDigitsCore_length 10 (by decide) (n + 1) n 10 h (by decide)

/-- Every byte of `format_d v` is `'-'` or one of `'0' .. '9'`. -/
theorem format_d_bytes (v : Int) (b : Nat) (h : b ∈ format_d v) :
    b = 45 ∨ (48 ≤ b ∧ b ≤ 57) := by
  unfold format_d at h
  by_cases hv : v < 0
  · rw [if_pos hv] at h
    rcases List.mem_cons.mp h with h1 | h1
    · exact Or.inl h1
    · exact Or.inr (decimal_digits _ b h1)
  · rw [if_neg hv] at h
    exact Or.inr (decimal_digits _ b h)

theorem format_d_no_newline (v : Int) : NEWLINE ∉ format_d v := by
  intro h
  rcases format_d_bytes v NEWLINE h with h1 | h1
  · exact absurd h1 (by decide)
  · exact absurd h1.1 (by decide)

theorem format_d_no_nul (v : Int) : NUL ∉ format_d v := by
  intro h
  rcases format_d_bytes v NUL h with h1 | h1
  · exact absurd h1 (by decide)
  · exact absurd h1.1 (by decide)

/-- A C `int` prints in at most eleven bytes. -/
theorem format_d_length (v : Int) (h : in_int_range v) : (format_d v).length ≤ 11 := by
  obtain ⟨h1, h2⟩ := h
  have hn : v.natAbs < 10 ^ 10 := by
    have : v.natAbs ≤ 2147483648 := by omega
    have h10 : (2147483648 : Nat) < 10 ^ 10 := by norm_num
    omega
  have hl := decimal_length v.natAbs hn
  unfold format_d
  by_cases hv : v < 0
  · rw [if_pos hv, List.length_cons]
    omega
  · rw [if_neg hv]
    omega

/-- The conversion `%s` copies a string without terminator bytes whole. -/
theorem format_s_eq (text : List Nat) (h : NUL ∉ text) : format_s text = text := by
  unfold format_s
  rw [List.takeWhile_eq_self_iff]
  intro x hx
  have hne : x ≠ NUL := fun hc => h (hc ▸ hx)
  simpa using hne

theorem strlen_eq (text : List Nat) (h : NUL ∉ text) : strlen (text ++ [NUL]) = text.length := by
  unfold strlen
  induction text with
  | nil => rfl
  | cons a t ih =>
    have ha : a ≠ NUL := fun hc => h (hc ▸ List.mem_cons_self a t)
    have ht : NUL ∉ t := fun hc => h (List.mem_cons_of_mem a hc)
    have hb : (a != NUL) = true := by simpa using ha
    rw [List.cons_append, List.takeWhile_cons, hb]
    simp only [if_true, List.length_cons]
    rw [ih ht]

/-- A line of at most 1023 bytes whose only newline is the closing one goes
into the buffer whole. -/
theorem snprintf_line (body : List Nat) (hlen : body.length ≤ 1022)
    (hnl : NEWLINE ∉ body) (hnul : NUL ∉ body) :
    snprintf 1024 (body ++ [NEWLINE]) = body ++ [NEWLINE] ++ [NUL] ∧
    (body ++ [NEWLINE]).count NEWLINE = 1 ∧
    (body ++ [NEWLINE]).getLast? = some NEWLINE ∧
    strlen (body ++ [NEWLINE] ++ [NUL]) = (body ++ [NEWLINE]).length := by
  refine ⟨?_, ?_, ?_, ?_⟩
  · unfold snprintf
    rw [List.take_of_length_le]
    rw [List.length_append, List.length_singleton]
    omega
  · rw [List.count_append, List.count_eq_zero_of_not_mem hnl]
    rfl
  · exact List.getLast?_concat body
  · apply strlen_eq
    intro h
    rcases List.mem_append.mp h with h1 | h1
    · exact hnul h1
    · exact absurd (List.mem_singleton.mp h1) (by decide)

theorem not_mem_pair (x a b : Nat) (ha : x ≠ a) (hb : x ≠ b) : x ∉ [a, b] := by
  intro h
  rcases List.mem_cons.mp h with h1 | h1
  · exact ha h1
  · exact hb (List.mem_singleton.mp h1)

theorem not_mem_comma (x : Nat) (h : x ≠ 44) : x ∉ [44] :=
  fun hc => h (List.mem_singleton.mp hc)

/-! ## C12: the text-carrying messages -/

/-- C12 (the claim as stated fails).  For the chat text of 1021 bytes `'a'` the
formatted line `"T," ++ text ++ "\n"` has 1024 bytes, `snprintf` keeps the
first 1023 of them, and the buffer handed to `client_send` is `"T,"` followed
by the 1021 bytes of the text: its last byte is `'a'`, the newline is lost. -/
theorem client_talk_long_text_loses_newline :
    (client_talk (state_holding []) (List.replicate 1021 97)).1
      = some ([84, 44] ++ List.replicate 1021 97 ++ [NUL]) ∧
    ([84, 44] ++ List.replicate 1021 97).getLast? = some 97 ∧
    [84, 44] ++ List.replicate 1021 97 ≠ [84, 44] ++ List.replicate 1021 97 ++ [NEWLINE] := by
  have hs : format_s (List.replicate 1021 97) = List.replicate 1021 97 :=
    format_s_eq _ (fun h => absurd (List.eq_of_mem_replicate h) (by decide))
  have hlen : strlen (List.replicate 1021 97) = 1021 := by
    show (format_s (List.replicate 1021 97)).length = 1021
    rw [hs, List.length_replicate]
  refine ⟨?_, ?_, ?_⟩
  · have he : (state_holding []).client_enabled ≠ 0 := by decide
    have h0 : strlen (List.replicate 1021 97) ≠ 0 := by
      rw [hlen]
      decide
    simp only [client_talk, he, if_false, h0, talk_text, hs, snprintf]
    have ht : List.take (1024 - 1) ([84, 44] ++ List.replicate 1021 97 ++ [NEWLINE])
        = [84, 44] ++ List.replicate 1021 97 :=
      List.take_left' (by rw [List.length_append, List.length_replicate]; rfl)
    rw [ht]
  · have h : List.replicate 1021 97 = List.replicate 1020 97 ++ [97] :=
      List.replicate_succ' 1020 97
    rw [h, ← List.append_assoc]
    exact List.getLast?_concat _
  · intro h
    have hl := congrArg List.length h
    simp only [List.length_append, List.length_replicate, List.length_cons,
      List.length_nil] at hl
    omega

/-- C12 (amended).  On an enabled client, for a username, an identity token, a
sign text and a chat text that are C strings (no terminator byte inside), each
operation whose own formatted line has at most 1023 bytes hands that whole line
to `client_send`, followed by the terminator:
`"A," ++ username ++ "," ++ token ++ "\n"` for `client_login`,
`"S," ++ x ++ "," ++ y ++ "," ++ z ++ "," ++ face ++ "," ++ text ++ "\n"`
(numbers in signed decimal, the text possibly empty) for `client_sign` and
`"T," ++ chat ++ "\n"` for `client_talk` with a non-empty chat text; `strlen`
of the buffer is the length of that line, whose last byte is a newline.  The
three parts are independent: each needs only the bound on its own line. -/
theorem text_messages_complete (s : State) (username identity_token text chat : List Nat)
    (x y z face : Int)
    (he : s.client_enabled ≠ 0)
    (hu : NUL ∉ username) (ht : NUL ∉ identity_token) (hx : NUL ∉ text)
    (hc : NUL ∉ chat) :
    ((login_text username identity_token).length ≤ 1023 →
      (client_login s username identity_token).1
        = some ([65, 44] ++ username ++ [44] ++ identity_token ++ [NEWLINE] ++ [NUL]) ∧
      strlen ([65, 44] ++ username ++ [44] ++ identity_token ++ [NEWLINE] ++ [NUL])
        = ([65, 44] ++ username ++ [44] ++ identity_token ++ [NEWLINE]).length ∧
      ([65, 44] ++ username ++ [44] ++ identity_token ++ [NEWLINE]).getLast? = some NEWLINE) ∧
    ((sign_text x y z face text).length ≤ 1023 →
      (client_sign s x y z face text).1
        = some ([83, 44] ++ format_d x ++ [44] ++ format_d y ++ [44] ++ format_d z ++ [44]
            ++ format_d face ++ [44] ++ text ++ [NEWLINE] ++ [NUL]) ∧
      strlen ([83, 44] ++ format_d x ++ [44] ++ format_d y ++ [44] ++ format_d z ++ [44]
            ++ format_d face ++ [44] ++ text ++ [NEWLINE] ++ [NUL])
        = ([83, 44] ++ format_d x ++ [44] ++ format_d y ++ [44] ++ format_d z ++ [44]
            ++ format_d face ++ [44] ++ text ++ [NEWLINE]).length ∧
      ([83, 44] ++ format_d x ++ [44] ++ format_d y ++ [44] ++ format_d z ++ [44]
            ++ format_d face ++ [44] ++ text ++ [NEWLINE]).getLast? = some NEWLINE) ∧
    (chat ≠ [] → (talk_text chat).length ≤ 1023 →
      (client_talk s chat).1 = some ([84, 44] ++ chat ++ [NEWLINE] ++ [NUL]) ∧
      strlen ([84, 44] ++ chat ++ [NEWLINE] ++ [NUL]) = ([84, 44] ++ chat ++ [NEWLINE]).length ∧
      ([84, 44] ++ chat ++ [NEWLINE]).getLast? = some NEWLINE) := by
  have su := format_s_eq username hu
  have st := format_s_eq identity_token ht
  have sx := format_s_eq text hx
  have sc := format_s_eq chat hc
  have fit : ∀ line : List Nat, line.length ≤ 1023 → snprintf 1024 line = line ++ [NUL] := by
    intro line hl
    unfold snprintf
    rw [List.take_of_length_le (by omega)]
  have n2 : ∀ a b : Nat, a ≠ NUL → b ≠ NUL → NUL ∉ [a, b] :=
    fun a b ha hb => not_mem_pair NUL a b (Ne.symm ha) (Ne.symm hb)
  have nc : NUL ∉ [44] := not_mem_comma NUL (by decide)
  have nn : NUL ∉ [NEWLINE] := fun hc => absurd (List.mem_singleton.mp hc) (by decide)
  have app : ∀ a b : List Nat, NUL ∉ a → NUL ∉ b → NUL ∉ a ++ b :=
    fun a b ha hb hc => (List.mem_append.mp hc).elim ha hb
  refine ⟨fun hlogin => ⟨?_, ?_, ?_⟩, fun hsign => ⟨?_, ?_, ?_⟩,
    fun hne htalk => ⟨?_, ?_, ?_⟩⟩
  · simp only [client_login, he, if_false]
    rw [fit _ hlogin]
    simp only [login_text, su, st]
  · apply strlen_eq
    exact app _ _ (app _ _ (app _ _ (app _ _ (n2 65 44 (by decide) (by decide)) hu) nc) ht) nn
  · exact List.getLast?_concat _
  · simp only [client_sign, he, if_false]
    rw [fit _ hsign]
    simp only [sign_text, sx]
  · apply strlen_eq
    exact app _ _ (app _ _ (app _ _ (app _ _ (app _ _ (app _ _ (app _ _ (app _ _ (app _ _
      (app _ _ (n2 83 44 (by decide) (by decide)) (format_d_no_nul x)) nc)
      (format_d_no_nul y)) nc) (format_d_no_nul z)) nc) (format_d_no_nul face)) nc) hx) nn
  · exact List.getLast?_concat _
  · have hlen : strlen chat ≠ 0 := by
      show (format_s chat).length ≠ 0
      rw [sc]
      exact fun h0 => hne (List.length_eq_zero.mp h0)
    simp only [client_talk, he, if_false, hlen]
    rw [fit _ htalk]
    simp only [talk_text, sc]
  · apply strlen_eq
    exact app _ _ (app _ _ (n2 84 44 (by decide) (by decide)) hc) nn
  · exact List.getLast?_concat _

/-- C12 (amended) at the bounds: the user `"bob"` with the token `"t0"`, a sign
with the empty text at `(1, -2, 3)`, face `4`, and a chat text of 1020 bytes
`'a'`, whose line has exactly 1023 bytes. -/
theorem text_messages_complete_witness :
    (client_login (state_holding []) [98, 111, 98] [116, 48]).1
      = some ([65, 44] ++ [98, 111, 98] ++ [44] ++ [116, 48] ++ [NEWLINE] ++ [NUL]) ∧
    (client_sign (state_holding []) 1 (-2) 3 4 []).1
      = some ([83, 44, 49, 44, 45, 50, 44, 51, 44, 52, 44, 10, 0]) ∧
    (client_talk (state_holding []) (List.replicate 1020 97)).1
      = some ([84, 44] ++ List.replicate 1020 97 ++ [NEWLINE] ++ [NUL]) := by
  have hnul : NUL ∉ List.replicate 1020 97 :=
    fun h => absurd (List.eq_of_mem_replicate h) (by decide)
  have h := text_messages_complete (state_holding []) [98, 111, 98] [116, 48] []
    (List.replicate 1020 97) 1 (-2) 3 4 (by decide) (by decide) (by decide) (by decide) hnul
  have hne : List.replicate 1020 97 ≠ [] := by
    intro h0
    have hl := congrArg List.length h0
    rw [List.length_replicate] at hl
    exact absurd hl (by decide)
  have hfit : (talk_text (List.replicate 1020 97)).length ≤ 1023 := by
    unfold talk_text
    rw [format_s_eq _ hnul]
    simp only [List.length_append, List.length_replicate, List.length_cons, List.length_nil]
    decide
  exact ⟨(h.1 (by decide)).1, (h.2.1 (by decide)).1, (h.2.2 hne hfit).1⟩

theorem plain_append (a b : List Nat)
    (ha : ∀ x, x ∈ a → x ≠ NEWLINE ∧ x ≠ NUL) (hb : ∀ x, x ∈ b → x ≠ NEWLINE ∧ x ≠ NUL) :
    ∀ x, x ∈ a ++ b → x ≠ NEWLINE ∧ x ≠ NUL :=
  fun x hx => (List.mem_append.mp hx).elim (ha x) (hb x)

theorem plain_format_d (v : Int) : ∀ x, x ∈ format_d v → x ≠ NEWLINE ∧ x ≠ NUL :=
  fun _ hx => ⟨fun hc => format_d_no_newline v (hc ▸ hx), fun hc => format_d_no_nul v (hc ▸ hx)⟩

theorem plain_comma : ∀ x, x ∈ [44] → x ≠ NEWLINE ∧ x ≠ NUL := by
  intro x hx
  rw [List.mem_singleton.mp hx]
  decide

theorem plain_tag (tag : Nat) (h : tag ≠ NEWLINE ∧ tag ≠ NUL) :
    ∀ x, x ∈ [tag, 44] → x ≠ NEWLINE ∧ x ≠ NUL := by
  intro x hx
  rcases List.mem_cons.mp hx with h1 | h1
  · rw [h1]
    exact h
  · exact plain_comma x h1

/-- The buffer made from a body without newline and terminator bytes, of at
most 1022 bytes, closed by a newline. -/
theorem snprintf_plain_line (body : List Nat) (hlen : body.length ≤ 1022)
    (hok : ∀ x, x ∈ body → x ≠ NEWLINE ∧ x ≠ NUL) :
    snprintf 1024 (body ++ [NEWLINE]) = body ++ [NEWLINE] ++ [NUL] ∧
    (body ++ [NEWLINE]).count NEWLINE = 1 ∧
    (body ++ [NEWLINE]).getLast? = some NEWLINE ∧
    strlen (body ++ [NEWLINE] ++ [NUL]) = (body ++ [NEWLINE]).length :=
  snprintf_line body hlen (fun h => (hok _ h).1 rfl) (fun h => (hok _ h).2 rfl)

/-- C13. On an enabled client, for all arguments in the range of the C type
`int`, the buffer handed to `client_send` is the whole formatted line followed
by the terminator, nothing being cut by the 1024-byte buffer: `"V,<version>\n"`
for `client_version`, `"C,<p>,<q>,<key>\n"` for `client_chunk`,
`"B,<x>,<y>,<z>,<w>\n"` for `client_block` and `"L,<x>,<y>,<z>,<w>\n"` for
`client_light`, every field in signed decimal (`format_d`); each line holds
exactly one newline, which is its last byte. -/
theorem int_messages_exact (s : State) (version p q key x y z w : Int)
    (he : s.client_enabled ≠ 0)
    (hversion : in_int_range version)
    (hp : in_int_range p) (hq : in_int_range q) (hkey : in_int_range key)
    (hx : in_int_range x) (hy : in_int_range y) (hz : in_int_range z)
    (hw : in_int_range w) :
    ((client_version s version).1
        = some ([86, 44] ++ format_d version ++ [NEWLINE] ++ [NUL]) ∧
      ([86, 44] ++ format_d version ++ [NEWLINE]).count NEWLINE = 1 ∧
      ([86, 44] ++ format_d version ++ [NEWLINE]).getLast? = some NEWLINE) ∧
    ((client_chunk s p q key).1
        = some ([67, 44] ++ format_d p ++ [44] ++ format_d q ++ [44] ++ format_d key
            ++ [NEWLINE] ++ [NUL]) ∧
      ([67, 44] ++ format_d p ++ [44] ++ format_d q ++ [44] ++ format_d key
            ++ [NEWLINE]).count NEWLINE = 1 ∧
      ([67, 44] ++ format_d p ++ [44] ++ format_d q ++ [44] ++ format_d key
            ++ [NEWLINE]).getLast? = some NEWLINE) ∧
    ((client_block s x y z w).1
        = some ([66, 44] ++ format_d x ++ [44] ++ format_d y ++ [44] ++ format_d z ++ [44]
            ++ format_d w ++ [NEWLINE] ++ [NUL]) ∧
      ([66, 44] ++ format_d x ++ [44] ++ format_d y ++ [44] ++ format_d z ++ [44]
            ++ format_d w ++ [NEWLINE]).count NEWLINE = 1 ∧
      ([66, 44] ++ format_d x ++ [44] ++ format_d y ++ [44] ++ format_d z ++ [44]
            ++ format_d w ++ [NEWLINE]).getLast? = some NEWLINE) ∧
    ((client_light s x y z w).1
        = some ([76, 44] ++ format_d x ++ [44] ++ format_d y ++ [44] ++ format_d z ++ [44]
            ++ format_d w ++ [NEWLINE] ++ [NUL]) ∧
      ([76, 44] ++ format_d x ++ [44] ++ format_d y ++ [44] ++ format_d z ++ [44]
            ++ format_d w ++ [NEWLINE]).count NEWLINE = 1 ∧
      ([76, 44] ++ format_d x ++ [44] ++ format_d y ++ [44] ++ format_d z ++ [44]
            ++ format_d w ++ [NEWLINE]).getLast? = some NEWLINE) := by
  have lv := format_d_length version hversion
  have lp := format_d_length p hp
  have lq := format_d_length q hq
  have lk := format_d_length key hkey
  have lx := format_d_length x hx
  have ly := format_d_length y hy
  have lz := format_d_length z hz
  have lw := format_d_length w hw
  have hV := snprintf_plain_line ([86, 44] ++ format_d version)
    (by simp only [List.length_append, List.length_cons, List.length_nil]; omega)
    (plain_append _ _ (plain_tag 86 (by decide)) (plain_format_d version))
  have hC := snprintf_plain_line
    ([67, 44] ++ format_d p ++ [44] ++ format_d q ++ [44] ++ format_d key)
    (by simp only [List.length_append, List.length_cons, List.length_nil]; omega)
    (plain_append _ _ (plain_append _ _ (plain_append _ _ (plain_append _ _ (plain_append _ _
      (plain_tag 67 (by decide)) (plain_format_d p)) plain_comma) (plain_format_d q))
      plain_comma) (plain_format_d key))
  have four : ∀ tag : Nat, tag ≠ NEWLINE ∧ tag ≠ NUL →
      ∀ x0, x0 ∈ [tag, 44] ++ format_d x ++ [44] ++ format_d y ++ [44] ++ format_d z ++ [44]
        ++ format_d w → x0 ≠ NEWLINE ∧ x0 ≠ NUL :=
    fun tag htag =>
      plain_append _ _ (plain_append _ _ (plain_append _ _ (plain_append _ _ (plain_append _ _
        (plain_append _ _ (plain_append _ _ (plain_tag tag htag) (plain_format_d x)) plain_comma)
        (plain_format_d y)) plain_comma) (plain_format_d z)) plain_comma) (plain_format_d w)
  have hB := snprintf_plain_line
    ([66, 44] ++ format_d x ++ [44] ++ format_d y ++ [44] ++ format_d z ++ [44] ++ format_d w)
    (by simp only [List.length_append, List.length_cons, List.length_nil]; omega)
    (four 66 (by decide))
  have hL := snprintf_plain_line
    ([76, 44] ++ format_d x ++ [44] ++ format_d y ++ [44] ++ format_d z ++ [44] ++ format_d w)
    (by simp only [List.length_append, List.length_cons, List.length_nil]; omega)
    (four 76 (by decide))
  refine ⟨⟨?_, hV.2.1, hV.2.2.1⟩, ⟨?_, hC.2.1, hC.2.2.1⟩, ⟨?_, hB.2.1, hB.2.2.1⟩,
    ⟨?_, hL.2.1, hL.2.2.1⟩⟩
  · simp only [client_version, he, if_false, version_text]
    rw [hV.1]
  · simp only [client_chunk, he, if_false, chunk_text]
    rw [hC.1]
  · simp only [client_block, he, if_false, block_text]
    rw [hB.1]
  · simp only [client_light, he, if_false, light_text]
    rw [hL.1]

/-- C13 at the extreme values of `int`: `client_version(1)` gives `"V,1\n"` and
`client_block(-2147483648, 2147483647, 0, -1)` gives
`"B,-2147483648,2147483647,0,-1\n"`. -/
theorem int_messages_exact_witness :
    (client_version (state_holding []) 1).1 = some [86, 44, 49, 10, 0] ∧
    (client_block (state_holding []) (-2147483648) 2147483647 0 (-1)).1
      = some [66, 44, 45, 50, 49, 52, 55, 52, 56, 51, 54, 52, 56, 44,
          50, 49, 52, 55, 52, 56, 51, 54, 52, 55, 44, 48, 44, 45, 49, 10, 0] := by
  have h := int_messages_exact (state_holding []) 1 0 0 0 (-2147483648) 2147483647 0 (-1)
    (by decide) (by unfold in_int_range; decide) (by unfold in_int_range; decide)
    (by unfold in_int_range; decide) (by unfold in_int_range; decide)
    (by unfold in_int_range; decide) (by unfold in_int_range; decide)
    (by unfold in_int_range; decide) (by unfold in_int_range; decide)
  exact ⟨h.1.1, h.2.2.1.1⟩

/-! ## C14: the buffer invariant and `client_stop` -/

/-- One step on the shared buffer keeps `qsize` below `QUEUE_SIZE`. -/
theorem apply_op_bound (s : State) (op : BufferOp) (h : s.qsize < QUEUE_SIZE) :
    (apply_op s op).qsize < QUEUE_SIZE := by
  cases op with
  | append data =>
    show (recv_worker_append s data).2.qsize < QUEUE_SIZE
    by_cases hfit : s.qsize + data.length < QUEUE_SIZE
    · rw [(recv_worker_append_fits s data hfit).2.2.1]
      exact hfit
    · rw [recv_worker_append_full s data hfit]
      exact h
  | recv =>
    show (client_recv s).2.qsize < QUEUE_SIZE
    cases hr : (client_recv s).1 with
    | none =>
      rw [client_recv_none s hr]
      exact h
    | some block =>
      obtain ⟨he, p, hp, hq, hl⟩ := client_recv_some s block hr
      rw [(client_recv_content_at s p he hp hq hl).2.2.1]
      omega
  | stop =>
    show (client_stop s).qsize < QUEUE_SIZE
    unfold client_stop
    by_cases he : s.client_enabled = 0
    · rw [if_pos he]
      exact h
    · rw [if_neg he]
      show 0 < QUEUE_SIZE
      decide

theorem foldl_apply_op_bound (ops : List BufferOp) :
    ∀ s : State, s.qsize < QUEUE_SIZE → (ops.foldl apply_op s).qsize < QUEUE_SIZE := by
  induction ops with
  | nil => exact fun _ h => h
  | cons op rest ih => exact fun s h => ih (apply_op s op) (apply_op_bound s op h)

theorem recv_worker_append_keeps_block (s : State) (data : List Nat) :
    (recv_worker_append s data).2.queue_freed = s.queue_freed := by
  unfold recv_worker_append
  by_cases h : s.qsize + data.length < QUEUE_SIZE
  · rw [if_pos h]
  · rw [if_neg h]

theorem client_recv_keeps_block (s : State) :
    (client_recv s).2.queue_freed = s.queue_freed := by
  cases hr : (client_recv s).1 with
  | none => rw [client_recv_none s hr]
  | some block =>
    obtain ⟨he, p, hp, hq, hl⟩ := client_recv_some s block hr
    rw [client_recv_at s p he hp hq hl]

theorem foldl_apply_op_live (ops : List BufferOp) :
    ∀ s : State, s.queue_freed = false → (∀ op, op ∈ ops → op ≠ BufferOp.stop) →
      (ops.foldl apply_op s).queue_freed = false := by
  induction ops with
  | nil => exact fun _ h _ => h
  | cons op rest ih =>
    intro s h hops
    have hstep : (apply_op s op).queue_freed = false := by
      cases op with
      | append data =>
        show (recv_worker_append s data).2.queue_freed = false
        rw [recv_worker_append_keeps_block, h]
      | recv =>
        show (client_recv s).2.queue_freed = false
        rw [client_recv_keeps_block, h]
      | stop => exact absurd rfl (hops BufferOp.stop (List.mem_cons_self _ _))
    exact ih (apply_op s op) hstep (fun o ho => hops o (List.mem_cons_of_mem _ ho))

/-- The part of the buffer invariant that the code keeps: after `client_start`
on an enabled client, any sequence of append attempts, `client_recv` calls and
`client_stop` calls keeps `qsize` below `QUEUE_SIZE`, and as long as no
`client_stop` is among them the block behind `queue` is allocated and holds the
`qsize` buffered bytes at its offsets `0 .. qsize - 1`. -/
theorem buffer_invariant_until_stop (s0 : State) (ops : List BufferOp)
    (he : s0.client_enabled ≠ 0) :
    (ops.foldl apply_op (client_start s0)).qsize < QUEUE_SIZE ∧
    ((∀ op, op ∈ ops → op ≠ BufferOp.stop) →
      (ops.foldl apply_op (client_start s0)).queue_freed = false ∧
      (content (ops.foldl apply_op (client_start s0))).length
        = (ops.foldl apply_op (client_start s0)).qsize) := by
  have h0 : (client_start s0).qsize < QUEUE_SIZE := by
    rw [(client_start_enabled s0 he).2.1]
    decide
  have hl : (client_start s0).queue_freed = false := by
    simp only [client_start, he, if_false]
  exact ⟨foldl_apply_op_bound ops (client_start s0) h0,
    fun hops => ⟨foldl_apply_op_live ops (client_start s0) hl hops, content_length _⟩⟩

/-- An append attempt that follows `client_stop` on an enabled client passes
the guard whenever the chunk is shorter than `QUEUE_SIZE`, and leaves the chunk
buffered in the block that `client_stop` freed. -/
theorem append_after_stop (s : State) (data : List Nat)
    (he : s.client_enabled ≠ 0) (hlen : data.length < QUEUE_SIZE) :
    (recv_worker_append (client_stop s) data).1 = true ∧
    (recv_worker_append (client_stop s) data).2.qsize = data.length ∧
    (recv_worker_append (client_stop s) data).2.queue_freed = true ∧
    content (recv_worker_append (client_stop s) data).2 = data := by
  have hq : (client_stop s).qsize = 0 := by
    simp only [client_stop, he, if_false]
  have hf : (client_stop s).queue_freed = true := by
    simp only [client_stop, he, if_false]
  have hfit : (client_stop s).qsize + data.length < QUEUE_SIZE := by
    rw [hq, Nat.zero_add]
    exact hlen
  obtain ⟨h1, h2, h3, _⟩ := recv_worker_append_fits (client_stop s) data hfit
  refine ⟨h1, ?_, ?_, ?_⟩
  · rw [h3, hq, Nat.zero_add]
  · rw [recv_worker_append_keeps_block, hf]
  · have hc : content (client_stop s) = [] := by
      unfold content
      rw [hq]
      rfl
    rw [h2, hc, List.nil_append]

/-- C14 (what the code does at the failing input).  After `client_start`, a
`client_stop` that comes between the receiver's read of the chunk `"C"` and its
append attempt sets `qsize = 0` and frees the block; the append attempt then
passes the guard, copies the chunk to offset `0` of the freed block and sets
`qsize = 1`: the state holds one buffered byte and no allocated byte store for
it, where the invariant asks for the buffered bytes to be the prefix of the
byte store. -/
theorem buffered_byte_in_freed_block :
    (client_stop (client_start (state_holding []))).qsize = 0 ∧
    (client_stop (client_start (state_holding []))).queue_freed = true ∧
    (recv_worker_append (client_stop (client_start (state_holding []))) [67]).1 = true ∧
    ([BufferOp.stop, BufferOp.append [67]].foldl apply_op
      (client_start (state_holding []))).qsize = 1 ∧
    ([BufferOp.stop, BufferOp.append [67]].foldl apply_op
      (client_start (state_holding []))).queue_freed = true ∧
    content ([BufferOp.stop, BufferOp.append [67]].foldl apply_op
      (client_start (state_holding []))) = [67] := by
  decide

/-! ## C15: errors of the send primitive -/

/-- When one of the calls made by the loop returns `-1`, the loop ends with
`-1`, and that call is the last one. -/
theorem client_sendall_loop_error (send : Nat → Int → Int) (data : List Nat) (fuel : Nat) :
    ∀ (k : Nat) (count length : Int) (s : State) (wire : List Nat),
      (-1 : Int) ∈ client_sendall_loop_returns send fuel k count length →
      (∃ r, client_sendall_loop send data fuel k count length s wire = some r ∧ r.ret = -1) ∧
      (client_sendall_loop_returns send fuel k count length).getLast? = some (-1) := by
  induction fuel with
  | zero =>
    intro k count length s wire h
    simp [client_sendall_loop_returns] at h
  | succ f ih =>
    intro k count length s wire h
    unfold client_sendall_loop_returns at h ⊢
    unfold client_sendall_loop
    by_cases hc : count < length
    · simp only [hc, if_true] at h ⊢
      by_cases hn : send k length = -1
      · simp only [hn, if_true]
        exact ⟨⟨_, rfl, rfl⟩, rfl⟩
      · simp only [hn, if_false] at h ⊢
        have hrest : (-1 : Int) ∈ client_sendall_loop_returns send f (k + 1)
            (count + send k length) (length - send k length) := by
          rcases List.mem_cons.mp h with h1 | h1
          · exact absurd h1.symm hn
          · exact h1
        obtain ⟨h1, h2⟩ := ih (k + 1) (count + send k length) (length - send k length)
          { s with bytes_sent := int_add s.bytes_sent (send k length) }
          (wire ++ (data.drop count.toNat).take (send k length).toNat) hrest
        refine ⟨h1, ?_⟩
        cases hl : client_sendall_loop_returns send f (k + 1)
            (count + send k length) (length - send k length) with
        | nil =>
          rw [hl] at hrest
          exact absurd hrest (List.not_mem_nil _)
        | cons a t =>
          rw [hl] at h2
          rw [List.getLast?_cons_cons]
          exact h2
    · simp only [hc, if_false] at h
      exact absurd h (List.not_mem_nil _)

/-- The loop ends with `-1` only when one of its calls returned `-1`, and ends
with `0` otherwise. -/
theorem client_sendall_loop_ret (send : Nat → Int → Int) (data : List Nat) (fuel : Nat) :
    ∀ (k : Nat) (count length : Int) (s : State) (wire : List Nat) (r : SendResult),
      client_sendall_loop send data fuel k count length s wire = some r →
      (r.ret = -1 ∧ (-1 : Int) ∈ client_sendall_loop_returns send fuel k count length) ∨
      (r.ret = 0 ∧ (-1 : Int) ∉ client_sendall_loop_returns send fuel k count length) := by
  induction fuel with
  | zero =>
    intro k count length s wire r h
    simp [client_sendall_loop] at h
  | succ f ih =>
    intro k count length s wire r h
    unfold client_sendall_loop at h
    unfold client_sendall_loop_returns
    by_cases hc : count < length
    · simp only [hc, if_true] at h ⊢
      by_cases hn : send k length = -1
      · simp only [hn, if_true] at h ⊢
        have hr := Option.some.inj h
        rw [← hr]
        exact Or.inl ⟨rfl, List.mem_singleton.mpr rfl⟩
      · simp only [hn, if_false] at h ⊢
        rcases ih _ _ _ _ _ r h with ⟨h1, h2⟩ | ⟨h1, h2⟩
        · exact Or.inl ⟨h1, List.mem_cons_of_mem _ h2⟩
        · refine Or.inr ⟨h1, ?_⟩
          intro hm
          rcases List.mem_cons.mp hm with h3 | h3
          · exact hn h3.symm
          · exact h2 h3
    · simp only [hc, if_false] at h ⊢
      have hr := Option.some.inj h
      rw [← hr]
      exact Or.inr ⟨rfl, List.not_mem_nil _⟩

/-- C15 (the claim as stated fails).  With one byte to send and a primitive
whose first call returns the negative value `-2` and whose second call accepts
the three bytes then asked for, `client_sendall` makes both calls and returns
`0`, and `client_send` does not end the process: a negative value other than
`-1` is not treated as an error. -/
theorem client_sendall_ignores_other_negatives :
    client_sendall_returns (fun k _ => if k = 0 then -2 else 3) 8 (state_holding []) 1
      = [-2, 3] ∧
    (client_sendall (fun k _ => if k = 0 then -2 else 3) 8 (state_holding []) [10] 1).map
      (fun r => r.ret) = some 0 ∧
    (client_send (fun k _ => if k = 0 then -2 else 3) 8 (state_holding []) [10, 0]).map
      (fun c => c.exited) = some false := by
  decide

/-- C15 (amended).  If some call of the send primitive made by `client_sendall`
returns `-1`, then `client_sendall` returns `-1` and that call is the last one
it makes, and `client_send` ends the process; and `client_sendall` returns
`-1` only when one of its calls returned `-1`. -/
theorem client_sendall_minus_one (send : Nat → Int → Int) (data : List Nat)
    (fuel : Nat) (s : State) (length : Int) :
    ((-1 : Int) ∈ client_sendall_returns send fuel s length →
      (∃ r, client_sendall send fuel s data length = some r ∧ r.ret = -1) ∧
      (client_sendall_returns send fuel s length).getLast? = some (-1)) ∧
    ((-1 : Int) ∈ client_sendall_returns send fuel s (strlen data) →
      ∃ c, client_send send fuel s data = some c ∧ c.exited = true) ∧
    (∀ r, client_sendall send fuel s data length = some r → r.ret = -1 →
      (-1 : Int) ∈ client_sendall_returns send fuel s length) := by
  by_cases he : s.client_enabled = 0
  · refine ⟨?_, ?_, ?_⟩
    · intro h
      simp [client_sendall_returns, he] at h
    · intro h
      simp [client_sendall_returns, he] at h
    · intro r h hr
      simp only [client_sendall, he, if_true] at h
      rw [← Option.some.inj h] at hr
      have h0 : (0 : Int) = -1 := hr
      exact absurd h0 (by decide)
  · refine ⟨?_, ?_, ?_⟩
    · intro h
      simp only [client_sendall_returns, he, if_false] at h ⊢
      simp only [client_sendall, he, if_false]
      exact client_sendall_loop_error send data fuel 0 0 length s [] h
    · intro h
      simp only [client_sendall_returns, he, if_false] at h
      obtain ⟨⟨r, h1, h2⟩, _⟩ :=
        client_sendall_loop_error send data fuel 0 0 (strlen data) s [] h
      refine ⟨{ exited := true, state := r.state, wire := r.wire }, ?_, rfl⟩
      simp only [client_send, he, if_false, client_sendall, h1, h2, if_true]
    · intro r h hr
      simp only [client_sendall, he, if_false] at h
      simp only [client_sendall_returns, he, if_false]
      rcases client_sendall_loop_ret send data fuel 0 0 length s [] r h with ⟨_, h2⟩ | ⟨h1, _⟩
      · exact h2
      · rw [h1] at hr
        exact absurd hr (by decide)

/-- C15 (amended) with four bytes to send and a primitive that accepts one
byte and then fails: `client_sendall` returns `-1` after the second call. -/
theorem client_sendall_minus_one_witness :
    (∃ r, client_sendall (fun k _ => if k = 0 then 1 else -1) 8 (state_holding [])
      [86, 44, 49, 10] 4 = some r ∧ r.ret = -1) ∧
    client_sendall_returns (fun k _ => if k = 0 then 1 else -1) 8 (state_holding []) 4
      = [1, -1] := by
  have h := client_sendall_minus_one (fun k _ => if k = 0 then 1 else -1) [86, 44, 49, 10] 8
    (state_holding []) 4
  exact ⟨(h.1 (by decide)).1, by decide⟩

/-! ## C16: the mutex -/

/-- C16 (what the code does).  The writes of `client_recv` and of the inner
loop of `recv_worker` all happen between `mtx_lock` and `mtx_unlock`, on both
paths of each; the writes of `client_stop` (`qsize = 0`, `free(queue)`) happen
with the mutex not held. -/
theorem client_stop_writes_unlocked :
    (∀ found, writes_locked false (client_recv_accesses found) = true) ∧
    (∀ fits, writes_locked false (recv_worker_accesses fits) = true) ∧
    writes_locked false client_stop_accesses = false := by
  decide

/-! ## C17: the read step of the receiver -/

/-- C17. After a `recv` that returned `length ≤ 0` the receiver ends the
process with a fatal error when `running` is set and leaves its loop returning
`0` when `running` is clear, as it is after `client_stop` on an enabled client;
after a `recv` that returned `length > 0` it does neither and goes on to append
the `length` bytes read. -/
theorem recv_worker_read_cases (s : State) (length : Int) (data : List Nat) :
    (length ≤ 0 → s.running ≠ 0 → recv_worker_read s length data = WorkerStep.fatal) ∧
    (length ≤ 0 → s.running = 0 →
      recv_worker_read s length data = WorkerStep.returned 0) ∧
    (length ≤ 0 → s.client_enabled ≠ 0 →
      recv_worker_read (client_stop s) length data = WorkerStep.returned 0) ∧
    (0 < length →
      recv_worker_read s length data = WorkerStep.append (data.take length.toNat) ∧
      recv_worker_read s length data ≠ WorkerStep.fatal ∧
      ∀ value, recv_worker_read s length data ≠ WorkerStep.returned value) := by
  refine ⟨?_, ?_, ?_, ?_⟩
  · intro hl hr
    simp only [recv_worker_read, hl, if_true, hr, ne_eq, not_false_eq_true]
  · intro hl hr
    simp only [recv_worker_read, hl, if_true, hr, ne_eq, not_true_eq_false, if_false]
  · intro hl he
    have hr : (client_stop s).running = 0 := by
      simp only [client_stop, he, if_false]
    simp only [recv_worker_read, hl, if_true, hr, ne_eq, not_true_eq_false, if_false]
  · intro hl
    have hn : ¬ length ≤ 0 := not_le.mpr hl
    have h : recv_worker_read s length data = WorkerStep.append (data.take length.toNat) := by
      simp only [recv_worker_read, hn, if_false]
    rw [h]
    exact ⟨rfl, fun hc => WorkerStep.noConfusion hc, fun _ hc => WorkerStep.noConfusion hc⟩

/-- C17 on a running client: a read of `0` and a read of `-1` are fatal, after
`client_stop` they end the loop, and a read of two bytes goes on to append. -/
theorem recv_worker_read_cases_witness :
    recv_worker_read (state_holding []) 0 [] = WorkerStep.fatal ∧
    recv_worker_read (state_holding []) (-1) [] = WorkerStep.fatal ∧
    recv_worker_read (client_stop (state_holding [])) 0 [] = WorkerStep.returned 0 ∧
    recv_worker_read (state_holding []) 2 [65, 10, 0] = WorkerStep.append [65, 10] := by
  have h0 := recv_worker_read_cases (state_holding []) 0 []
  have h1 := recv_worker_read_cases (state_holding []) (-1) []
  have h2 := recv_worker_read_cases (state_holding []) 2 [65, 10, 0]
  exact ⟨h0.1 (by decide) (by decide), h1.1 (by decide) (by decide),
    h0.2.2.1 (by decide) (by decide), (h2.2.2.2 (by decide)).1⟩

/-! ## C18: the stored pose is the last pose sent -/

/-- C18. A `client_position` call that is suppressed, because the client is
disabled or because the new pose is at squared distance below `0.0001` from
the stored one, hands nothing to the send path and leaves the five stored pose
fields (and the rest of the state) unchanged; so the next call behaves exactly
as if the suppressed call had not been made, and on an enabled client it is
sent as soon as its pose is at squared distance at least `0.0001` from the
stored pose, however close it is to the pose of the suppressed call. -/
theorem client_position_keeps_sent_pose (s : State) (x y z rx ry : ℚ)
    (h : s.client_enabled = 0 ∨
      pose_distance s.px s.py s.pz s.prx s.pry x y z rx ry < 1 / 10000) :
    (client_position s x y z rx ry).1 = none ∧
    (client_position s x y z rx ry).2.px = s.px ∧
    (client_position s x y z rx ry).2.py = s.py ∧
    (client_position s x y z rx ry).2.pz = s.pz ∧
    (client_position s x y z rx ry).2.prx = s.prx ∧
    (client_position s x y z rx ry).2.pry = s.pry ∧
    (client_position s x y z rx ry).2 = s ∧
    (∀ x2 y2 z2 rx2 ry2,
      client_position (client_position s x y z rx ry).2 x2 y2 z2 rx2 ry2
        = client_position s x2 y2 z2 rx2 ry2) ∧
    (∀ x2 y2 z2 rx2 ry2, s.client_enabled ≠ 0 →
      1 / 10000 ≤ pose_distance s.px s.py s.pz s.prx s.pry x2 y2 z2 rx2 ry2 →
      (client_position (client_position s x y z rx ry).2 x2 y2 z2 rx2 ry2).1
        = some (snprintf 1024 (position_text x2 y2 z2 rx2 ry2))) := by
  have hs : client_position s x y z rx ry = (none, s) := by
    rcases h with h | h
    · simp only [client_position, h, if_true]
    · exact client_position_suppressed s x y z rx ry h
  rw [hs]
  refine ⟨rfl, rfl, rfl, rfl, rfl, rfl, rfl, fun _ _ _ _ _ => rfl, ?_⟩
  intro x2 y2 z2 rx2 ry2 he hd
  rw [client_position_sends s x2 y2 z2 rx2 ry2 he hd]

/-- C18 with the stored pose `(0,0,0,0,0)`: the move to `x = 0.006` is
suppressed; the move to `x = 0.012`, which is as close to the suppressed pose,
is sent because it is compared with the stored pose. -/
theorem client_position_keeps_sent_pose_witness :
    (client_position (client_enable initial) (3 / 500) 0 0 0 0).1 = none ∧
    pose_distance (3 / 500) 0 0 0 0 (3 / 250) 0 0 0 0 < 1 / 10000 ∧
    (client_position (client_position (client_enable initial) (3 / 500) 0 0 0 0).2
      (3 / 250) 0 0 0 0).1 = some (snprintf 1024 (position_text (3 / 250) 0 0 0 0)) := by
  have h := client_position_keeps_sent_pose (client_enable initial) (3 / 500) 0 0 0 0
    (Or.inr (by norm_num [pose_distance, client_enable, initial]))
  refine ⟨h.1, by norm_num [pose_distance], ?_⟩
  exact h.2.2.2.2.2.2.2.2 (3 / 250) 0 0 0 0 (by decide)
    (by norm_num [pose_distance, client_enable, initial])

/-! ## C19: a full buffer without newline stays full -/

theorem foldl_step_stuck (s : State) (data : List Nat)
    (hnl : ∀ i, i < s.qsize → s.queue i ≠ NEWLINE)
    (hfull : ¬ s.qsize + data.length < QUEUE_SIZE) (events : List Event) :
    (∀ e, e ∈ events → e = Event.recv ∨ e = Event.append data) →
    ∀ tr : Trace, events.foldl step (s, tr) = (s, tr) := by
  induction events with
  | nil => exact fun _ _ => rfl
  | cons e rest ih =>
    intro hev tr
    have hrest := ih (fun e he => hev e (List.mem_cons_of_mem _ he))
    have hstep : step (s, tr) e = (s, tr) := by
      rcases hev e (List.mem_cons_self e rest) with h | h
      · rw [h]
        simp only [step, client_recv_no_newline s hnl]
      · rw [h]
        simp only [step, recv_worker_append_full s data hfull]
        rfl
    rw [List.foldl_cons, hstep]
    exact hrest tr

/-- C19. From a buffer whose content holds no newline, with a pending chunk
that does not fit (`qsize + n ≥ QUEUE_SIZE`): the append attempt is rejected
and `client_recv` returns the null pointer, both leaving the state unchanged;
hence after any sequence of drains and retries of that append the state is
still the same, nothing was handed out, nothing was appended, and the attempt
is still rejected. -/
theorem backpressure_stuck (s : State) (data : List Nat) (events : List Event)
    (hnl : NEWLINE ∉ content s)
    (hfull : QUEUE_SIZE ≤ s.qsize + data.length)
    (hev : ∀ e, e ∈ events → e = Event.recv ∨ e = Event.append data) :
    recv_worker_append s data = (false, s) ∧
    client_recv s = (none, s) ∧
    (run s events).1 = s ∧
    (run s events).2.returned = [] ∧
    (run s events).2.appended = [] ∧
    (recv_worker_append (run s events).1 data).1 = false := by
  have hq : ∀ i, i < s.qsize → s.queue i ≠ NEWLINE := by
    intro i hi hc
    apply hnl
    rw [← hc]
    exact List.mem_map.mpr ⟨i, List.mem_range.mpr hi, rfl⟩
  have hf : ¬ s.qsize + data.length < QUEUE_SIZE := by omega
  have hrun : run s events = (s, { returned := [], appended := [] }) :=
    foldl_step_stuck s data hq hf events hev _
  rw [hrun, recv_worker_append_full s data hf, client_recv_no_newline s hq]
  exact ⟨rfl, rfl, rfl, rfl, rfl, rfl⟩

/-- C19 on a buffer of `QUEUE_SIZE - 1` bytes `'A'` with the pending chunk
`"B"`: after drain, retry, drain, retry nothing has moved. -/
theorem backpressure_stuck_witness :
    (run state_stuck
      [Event.recv, Event.append [66], Event.recv, Event.append [66]]).1 = state_stuck ∧
    (recv_worker_append state_stuck [66]).1 = false := by
  have hnl : NEWLINE ∉ content state_stuck := by
    intro h
    obtain ⟨i, _, hi⟩ := List.mem_map.mp h
    have h65 : (65 : Nat) = NEWLINE := hi
    exact absurd h65 (by decide)
  have h := backpressure_stuck state_stuck [66]
    [Event.recv, Event.append [66], Event.recv, Event.append [66]] hnl (by decide)
    (by
      intro e he
      simp only [List.mem_cons, List.mem_singleton, List.not_mem_nil, or_false] at he
      rcases he with h | h | h | h
      · exact Or.inl h
      · exact Or.inr h
      · exact Or.inl h
      · exact Or.inr h)
  refine ⟨h.2.2.1, ?_⟩
  rw [h.1]

/-! ## C20: the accesses of the receiver and of the drain stay in bounds -/

/-- The outcome of `client_recv` is determined by the flag, by `qsize`, by
`bytes_received` and by the bytes at offsets below `qsize`. -/
theorem client_recv_reads_content (s t : State)
    (he : s.client_enabled = t.client_enabled) (hq : s.qsize = t.qsize)
    (hb : ∀ i, i < s.qsize → s.queue i = t.queue i) :
    (client_recv s).1 = (client_recv t).1 ∧
    (client_recv s).2.qsize = (client_recv t).2.qsize ∧
    content (client_recv s).2 = content (client_recv t).2 := by
  have hc : content s = content t := by
    unfold content
    rw [← hq]
    apply List.map_congr_left
    intro i hi
    exact hb i (List.mem_range.mp hi)
  by_cases hen : s.client_enabled = 0
  · have hen2 : t.client_enabled = 0 := he ▸ hen
    have hs : client_recv s = (none, s) := by simp only [client_recv, hen, if_true]
    have ht : client_recv t = (none, t) := by simp only [client_recv, hen2, if_true]
    rw [hs, ht]
    exact ⟨rfl, hq, hc⟩
  · have hen2 : t.client_enabled ≠ 0 := he ▸ hen
    rcases scan_back_spec s.queue s.qsize with ⟨_, h2⟩ | ⟨p, hp, _, h2, h3⟩
    · have h2t : ∀ i, i < t.qsize → t.queue i ≠ NEWLINE := by
        intro i hi
        rw [← hb i (hq ▸ hi)]
        exact h2 i (hq ▸ hi)
      rw [client_recv_no_newline s h2, client_recv_no_newline t h2t]
      exact ⟨rfl, hq, hc⟩
    · have hpt : p < t.qsize := hq ▸ hp
      have h2t : t.queue p = NEWLINE := by
        rw [← hb p hp]
        exact h2
      have h3t : ∀ j, p < j → j < t.qsize → t.queue j ≠ NEWLINE := by
        intro j h4 h5
        rw [← hb j (hq ▸ h5)]
        exact h3 j h4 (hq ▸ h5)
      obtain ⟨a1, a2, a3, _⟩ := client_recv_content_at s p hen hp h2 h3
      obtain ⟨b1, b2, b3, _⟩ := client_recv_content_at t p hen2 hpt h2t h3t
      refine ⟨?_, ?_, ?_⟩
      · rw [a1, b1, hc]
      · rw [a3, b3, hq]
      · rw [a2, b2, hc]

/-- A `client_recv` call writes no byte of the block at or above offset `qsize`. -/
theorem client_recv_writes_below (s : State) (i : Nat) (hi : s.qsize ≤ i) :
    (client_recv s).2.queue i = s.queue i := by
  cases hr : (client_recv s).1 with
  | none => rw [client_recv_none s hr]
  | some block =>
    obtain ⟨he, p, hp, hq, hl⟩ := client_recv_some s block hr
    rw [client_recv_at s p he hp hq hl]
    show memmove s.queue (p + 1) (s.qsize - (p + 1)) i = s.queue i
    have hn : ¬ i < s.qsize - (p + 1) := by omega
    simp only [memmove, hn, if_false]

/-- C20. For a read of `n` bytes with `1 ≤ n ≤ RECV_SIZE - 1` the terminator
index `n` is below `RECV_SIZE`; when the guard `qsize + n < QUEUE_SIZE` holds,
the `memcpy` of the append writes exactly the `n + 1` offsets
`qsize .. qsize + n` of the queue, all of them at most `1048575`, and no other
byte of the block changes; and `client_recv` reads only the offsets below
`qsize` (its result is the same on any block with the same bytes there) and
writes none at or above `qsize`. -/
theorem receiver_accesses_in_bounds (s : State) (data : List Nat)
    (h1 : 1 ≤ data.length) (h2 : data.length ≤ recv_request)
    (h3 : s.qsize + data.length < QUEUE_SIZE) :
    data.length < RECV_SIZE ∧
    (recv_worker_append s data).2.queue = memcpy s.queue s.qsize (data ++ [NUL]) ∧
    (data ++ [NUL]).length = data.length + 1 ∧
    (∀ i, s.qsize ≤ i ∧ i < s.qsize + (data ++ [NUL]).length →
      i ≤ s.qsize + data.length ∧ i ≤ 1048575 ∧ i < QUEUE_SIZE) ∧
    (∀ i, ¬ (s.qsize ≤ i ∧ i < s.qsize + (data ++ [NUL]).length) →
      (recv_worker_append s data).2.queue i = s.queue i) ∧
    (∀ t : State, t.client_enabled = s.client_enabled → t.qsize = s.qsize →
      (∀ i, i < s.qsize → t.queue i = s.queue i) →
      (client_recv t).1 = (client_recv s).1 ∧
      content (client_recv t).2 = content (client_recv s).2) ∧
    (∀ i, s.qsize ≤ i → (client_recv s).2.queue i = s.queue i) := by
  have hq : (recv_worker_append s data).2.queue = memcpy s.queue s.qsize (data ++ [NUL]) := by
    unfold recv_worker_append
    rw [if_pos h3]
  have hlen : (data ++ [NUL]).length = data.length + 1 := by
    rw [List.length_append, List.length_singleton]
  have hC : QUEUE_SIZE = 1048576 := rfl
  have hR : recv_request = 4095 := rfl
  have hS : RECV_SIZE = 4096 := rfl
  refine ⟨by omega, hq, hlen, ?_, ?_, ?_, client_recv_writes_below s⟩
  · intro i hi
    rw [hlen] at hi
    omega
  · intro i hi
    rw [hq]
    simp only [memcpy, hi, if_false]
  · intro t he hqs hb
    have h := client_recv_reads_content t s he hqs (fun i hi => hb i (hqs ▸ hi))
    exact ⟨h.1, h.2.2⟩

/-- C20 on the buffer `"A\nB"` and the chunk `"C\n"`: the append writes the
offsets `3, 4, 5` only. -/
theorem receiver_accesses_in_bounds_witness :
    (recv_worker_append (state_holding [65, 10, 66]) [67, 10]).2.queue 3 = 67 ∧
    (recv_worker_append (state_holding [65, 10, 66]) [67, 10]).2.queue 5 = NUL ∧
    (recv_worker_append (state_holding [65, 10, 66]) [67, 10]).2.queue 6
      = (state_holding [65, 10, 66]).queue 6 := by
  have h := receiver_accesses_in_bounds (state_holding [65, 10, 66]) [67, 10]
    (by decide) (by decide) (by decide)
  refine ⟨by decide, by decide, h.2.2.2.2.1 6 (by decide)⟩

end Craft
